/-
Verification of the obfuskey-js numeric/codec engine.

This file gives a shallow embedding, in Lean 4, of the core functions of the
obfuskey-js library (arbitrary-precision arithmetic helpers, the primality
oracle and next-prime search, the base-N alphabet codec, the Obfuskey
obfuscation transform, and the Obfusbit bit-packing schema and packer), and
proves or refutes the specification claims about them.

Modelling conventions:
  * JavaScript BigInt values are modelled as Lean `Int` (the wrappers keep the
    source's sign checks); loop bodies that only ever see non-negative values
    are modelled with `Nat` cores.
  * JavaScript `%` on BigInt is truncated remainder, i.e. `Int.tmod`;
    JavaScript `/` on BigInt is truncated division, i.e. `Int.tdiv`.
    On non-negative operands these agree with `Nat` `%` and `/`.
  * JavaScript strings are modelled as `List Char`; an alphabet is the list of
    its characters in order.
  * Functions that can throw are modelled with `Except String`; the message
    strings summarise the thrown error class.
  * `while` loops are modelled by structural recursion on an explicit fuel
    parameter chosen generously; running out of fuel (which also models the
    source's genuine divergence, e.g. `encode` on a base-1 alphabet) yields a
    distinguished error.  All theorems below either show the fuel is
    sufficient or are independent of it.
-/
import Mathlib

namespace Obfus

/-! ## Arithmetic primitives (src/math) -/

/-- Euclidean loop of `gcd` (src/math/gcd.ts): `while (b != 0) [a, b] = [b, a % b]`.
The fuel is at least `b + 1`, which bounds the iteration count since the second
argument strictly decreases. -/
def gcdLoop : Nat → Nat → Nat → Nat
  | 0, a, _ => a
  | _ + 1, a, 0 => a
  | fuel + 1, a, b + 1 => gcdLoop fuel (b + 1) (a % (b + 1))

/-- `gcd(a, b)` from src/math/gcd.ts: Euclidean algorithm on the absolute
values of the inputs. -/
def gcd (a b : Int) : Int :=
  (gcdLoop (b.natAbs + 1) a.natAbs b.natAbs : Int)

/-- `divmod(a, b)` from src/math/divmod.ts: floor-division quotient and
remainder (remainder takes the sign of the divisor), built by adjusting the
truncated quotient/remainder exactly as the source does. -/
def divmod (a b : Int) : Except String (Int × Int) :=
  if b = 0 then .error "division by zero"
  else
    let q := a.tdiv b
    let r := a.tmod b
    if r ≠ 0 ∧ ((r < 0 ∧ b > 0) ∨ (r > 0 ∧ b < 0)) then .ok (q - 1, r + b)
    else .ok (q, r)

/-- Core loop of `getBitLength` on a non-negative value: the number of binary
digits of `n` (0 for 0), i.e. the length of `n.toString(2)` in the source
(src/utils/getBitLength.ts).  Fuel `n + 1` is ample since the argument at
least halves each step. -/
def bitLenLoop : Nat → Nat → Nat
  | 0, _ => 0
  | fuel + 1, n => if n = 0 then 0 else bitLenLoop fuel (n / 2) + 1

/-- Bit length of a non-negative integer. -/
def getBitLength (n : Nat) : Nat := bitLenLoop (n + 1) n

/-- `getBitLength` on a BigInt (src/utils/getBitLength.ts): rejects negative
input with a ValueError. -/
def getBitLengthI (n : Int) : Except String Nat :=
  if n < 0 then .error "getBitLength argument must be a non-negative number"
  else .ok (getBitLength n.toNat)

/-- Newton-iteration loop of `isqrt` (src/math/isqrt.ts):
`while (x1 < x0) { x0 = x1; x1 = (x0 + n / x0) >> 1 }`.  `x0` strictly
decreases on every iteration, so fuel `x0` is enough. -/
def isqrtLoop (n : Nat) : Nat → Nat → Nat → Nat
  | 0, x0, _ => x0
  | fuel + 1, x0, x1 =>
    if x1 < x0 then isqrtLoop n fuel x1 ((x1 + n / x1) / 2)
    else x0

/-- `isqrt(n)` from src/math/isqrt.ts: integer square root by Newton's method
seeded from `1 << ((bitLength(n) + 1) >> 1)`; RangeError on negative input. -/
def isqrt (n : Int) : Except String Int :=
  if n < 0 then .error "Square root is not defined for negative numbers."
  else if n < 2 then .ok n
  else
    let m := n.toNat
    let x0 := 1 <<< ((getBitLength m + 1) / 2)
    let x1 := (x0 + m / x0) / 2
    .ok ((isqrtLoop m x0 x0 x1 : Nat) : Int)

/-- Extended-Euclid loop of `modInv` (src/math/modInv.ts), tracking the
remainder pair in `Nat` and the Bézout coefficient pair in `Int`:
each step computes `q = r_prev / r_curr` and replaces
`(r_prev, r_curr) ← (r_curr, r_prev - q·r_curr)` and
`(t_prev, t_curr) ← (t_curr, t_prev - q·t_curr)`.
Returns the final `(r_prev, t_prev)`.  Fuel at least `r_curr + 1` suffices
because `r_curr` strictly decreases. -/
def egcdLoop : Nat → Nat → Nat → Int → Int → Nat × Int
  | 0, rPrev, _, tPrev, _ => (rPrev, tPrev)
  | _ + 1, rPrev, 0, tPrev, _ => (rPrev, tPrev)
  | fuel + 1, rPrev, rCurr + 1, tPrev, tCurr =>
    let q := rPrev / (rCurr + 1)
    egcdLoop fuel (rCurr + 1) (rPrev - q * (rCurr + 1)) tCurr (tPrev - (q : Int) * tCurr)

/-- `modInv(base, mod)` from src/math/modInv.ts: extended Euclidean algorithm.
`a_init = ((base % mod) + mod) % mod` with JS truncated `%`; fails with a
NegativeValueError unless `mod` is positive and with a ValueError ("not
coprime") unless the final remainder is 1. -/
def modInv (base mod : Int) : Except String Int :=
  if mod ≤ 0 then .error "mod must be a positive integer"
  else
    let aInit := ((base.tmod mod) + mod).tmod mod
    let res := egcdLoop (aInit.toNat + 1) mod.toNat aInit.toNat 0 1
    if res.1 ≠ 1 then .error "No modular inverse; arguments are not coprime"
    else .ok (((res.2.tmod mod) + mod).tmod mod)

/-- Square-and-multiply loop of `pow` (src/math/pow.ts).  The accumulator,
current base and remaining exponent evolve exactly as in the source's
`while (currentExponent > 0n)` loop; fuel `exponent + 1` is ample since the
exponent halves. -/
def powLoop (modulus : Option Int) : Nat → Int → Int → Nat → Int
  | 0, result, _, _ => result
  | _ + 1, result, _, 0 => result
  | fuel + 1, result, curBase, e + 1 =>
    let result :=
      if (e + 1) % 2 = 1 then
        match modulus with
        | some m => (result * curBase).tmod m
        | none => result * curBase
      else result
    let curBase :=
      match modulus with
      | some m => (curBase * curBase).tmod m
      | none => curBase * curBase
    powLoop modulus fuel result curBase ((e + 1) / 2)

/-- `pow(base, exponent, modulus?)` from src/math/pow.ts: exponentiation by
squaring, with the source's special cases (negative exponent rejected, zero
modulus rejected, `x^0 = 1` with `1 % 1 = 0`, `0^e = 0`, modulus 1 yields 0,
negative bases normalised into `[0, modulus)`). -/
def pow (base exponent : Int) (modulus : Option Int := none) : Except String Int :=
  if exponent < 0 then .error "Negative exponents are not supported"
  else if modulus = some 0 then .error "Modulus cannot be zero"
  else if exponent = 0 then .ok (if modulus = some 1 then 0 else 1)
  else if base = 0 then .ok 0
  else if modulus = some 1 then .ok 0
  else
    let curBase :=
      match modulus with
      | some m => ((base.tmod m) + m).tmod m
      | none => base
    let r := powLoop modulus (exponent.toNat + 1) 1 curBase exponent.toNat
    .ok (match modulus with
         | some m => (r + m).tmod m
         | none => r)

/-- Halving loop of `factor` (src/math/factor.ts): `while (d % 2 == 0) { s += 1; d /= 2 }`. -/
def factorLoop : Nat → Nat → Nat → Nat × Nat
  | 0, s, d => (s, d)
  | fuel + 1, s, d => if d % 2 = 0 then factorLoop fuel (s + 1) (d / 2) else (s, d)

/-- `factor(n)` from src/math/factor.ts: writes `n - 1 = 2^s * d` with `d` odd;
ValueError for `n <= 1`. -/
def factor (n : Int) : Except String (Nat × Nat) :=
  if n ≤ 1 then .error "factor argument must be greater than 1"
  else .ok (factorLoop n.toNat 0 (n.toNat - 1))

/-- The squaring loop of `isStrongPseudoprime` (src/math/isStrongPseudoprime.ts):
up to `s` further squarings of the Miller-Rabin witness, succeeding on `n - 1`
and failing on `1` or exhaustion. -/
def mrLoop (n : Int) : Nat → Int → Except String Bool
  | 0, _ => .ok false
  | s + 1, x => do
    let x' ← pow x 2 (some n)
    if x' = n - 1 then .ok true
    else if x' = 1 then .ok false
    else mrLoop n s x'

/-- `isStrongPseudoprime(n, base)` from src/math/isStrongPseudoprime.ts:
single-base Miller-Rabin strong-pseudoprime test.  (`!(n & 1n)` is the
evenness test, modelled as `n % 2 = 0`.) -/
def isStrongPseudoprime (n : Int) (base : Int := 2) : Except String Bool :=
  if n % 2 = 0 then .ok false
  else if n = 1 then .ok false
  else do
    let sd ← factor n
    let x ← pow base (sd.2 : Int) (some n)
    if x = 1 ∨ x = n - 1 then .ok true
    else mrLoop n sd.1 x

/-- `isSmallStrongPseudoprime(n)` from src/math/isSmallStrongPseudoprime.ts:
Miller-Rabin with the fixed witness bases 2, 13, 23, 1662803 (short-circuiting
like `Array.every`). -/
def isSmallStrongPseudoprime (n : Int) : Except String Bool := do
  let b1 ← isStrongPseudoprime n 2
  if !b1 then .ok false
  else do
    let b2 ← isStrongPseudoprime n 13
    if !b2 then .ok false
    else do
      let b3 ← isStrongPseudoprime n 23
      if !b3 then .ok false
      else isStrongPseudoprime n 1662803

/-- Odd-divisor loop of `trialDivision` (src/math/trialDivision.ts):
`for (i = 3; i <= limit; i += 2) if (n % i == 0) return false`.
All quantities are non-negative, so the loop is modelled on `Nat`.
Fuel at least `limit` is ample (the counter increases by 2 each step). -/
def trialDivisionLoop (n limit : Nat) : Nat → Nat → Bool
  | 0, _ => true
  | fuel + 1, i =>
    if i ≤ limit then
      if n % i = 0 then false else trialDivisionLoop n limit fuel (i + 2)
    else true

/-- `trialDivision(n)` from src/math/trialDivision.ts: exact primality by trial
division by 2 and by odd numbers up to `isqrt(n)`. -/
def trialDivision (n : Int) : Except String Bool :=
  if n ≤ 1 then .ok false
  else if n = 2 ∨ n = 3 then .ok true
  else if n % 2 = 0 then .ok false
  else do
    let limit ← isqrt n
    .ok (trialDivisionLoop n.toNat limit.toNat (limit.toNat + 1) 3)

/-- `isPrime(n)` from src/math/isPrime.ts: small cases, divisibility by 2/3/5,
the wheel short-circuit `gcd(n, 510510) > 1` (510510 = 2·3·5·7·11·13·17),
trial division below 2,000,000, and the fixed-basis strong-pseudoprime test
above. -/
def isPrime (n : Int) : Except String Bool :=
  if n < 2 then .ok false
  else if n = 2 ∨ n = 3 ∨ n = 5 then .ok true
  else if n % 2 = 0 ∨ n % 3 = 0 ∨ n % 5 = 0 then .ok false
  else if gcd n 510510 > 1 then .ok (([7, 11, 13, 17] : List Int).contains n)
  else if n < 2000000 then trialDivision n
  else isSmallStrongPseudoprime n

/-- The 30-entry wheel gap table of `getNextPrime` (src/math/getNextPrime.ts). -/
def gapTable : List Nat :=
  [1, 6, 5, 4, 3, 2, 1, 4, 3, 2, 1, 2, 1, 4, 3, 2, 1, 2, 1, 4, 3, 2, 1, 6, 5, 4, 3, 2, 1, 2]

/-- Candidate loop of `getNextPrime`: `while (!isPrime(n)) n += gap[n % 30]`. -/
def getNextPrimeLoop : Nat → Nat → Except String Nat
  | 0, _ => .error "loop limit"
  | fuel + 1, c => do
    let p ← isPrime (c : Int)
    if p then .ok c else getNextPrimeLoop fuel (c + gapTable.getD (c % 30) 0)

/-- `getNextPrime(n)` from src/math/getNextPrime.ts: rejects inputs of bit
length above 512 (and, through `getBitLength`, negative inputs); returns 2
for `n < 2`, the table `[3, 5, 5]` for `n ∈ {2, 3, 4}`, and otherwise starts
from `n + 1 + (n & 1)`, hops off multiples of 3 and 5 via the gap table, and
loops until `isPrime` accepts.  The fuel `2n + 4` covers the search because a
prime exists in `(n, 2n]`. -/
def getNextPrime (n : Int) : Except String Int := do
  let bl ← getBitLengthI n
  if bl > 512 then .error "512-bit integers or larger are not supported"
  else if n < 2 then .ok 2
  else if n < 5 then .ok (([3, 5, 5] : List Int).getD (n.toNat - 2) 0)
  else
    let m := n.toNat
    let c0 := m + 1 + (m % 2)
    let c1 := if c0 % 3 = 0 ∨ c0 % 5 = 0 then c0 + gapTable.getD (c0 % 30) 0 else c0
    let r ← getNextPrimeLoop (2 * m + 4) c1
    .ok (r : Int)

/-! ## Alphabet and codec (src/ObfuskeyAlphabet.ts, src/utils/encode.ts, src/utils/decode.ts) -/

/-- `ObfuskeyAlphabet.charAt(index)` (src/ObfuskeyAlphabet.ts): the character at
a BigInt index; RangeError when the index is negative or at least the base.
The alphabet is the list of its characters; its base is its length. -/
def charAt (alphabet : List Char) (index : Int) : Except String Char :=
  if h : 0 ≤ index ∧ index.toNat < alphabet.length then
    .ok (alphabet.get ⟨index.toNat, h.2⟩)
  else .error "RangeError: index is out of bounds for the alphabet"

/-- `ObfuskeyAlphabet.indexOf(char)` (src/ObfuskeyAlphabet.ts): the BigInt index
of the first occurrence of a character; UnknownKeyError when absent.  (The
source's empty/multi-character checks cannot arise for a `Char`.) -/
def indexOf (alphabet : List Char) (c : Char) : Except String Int :=
  if c ∈ alphabet then .ok (alphabet.indexOf c : Nat)
  else .error "UnknownKeyError: character not found in the alphabet"

/-- `ObfuskeyAlphabet.getMaxValue(keyLength)` (src/ObfuskeyAlphabet.ts):
`base ^ keyLength - 1`; NegativeValueError for negative key length. -/
def getMaxValue (alphabet : List Char) (keyLength : Int) : Except String Int :=
  if keyLength < 0 then .error "Key length cannot be negative."
  else .ok ((alphabet.length : Int) ^ keyLength.toNat - 1)

/-- The `while (value > 0n)` loop of `encode` (src/utils/encode.ts), producing
the base-`alphabet.length` digits most-significant first.  Each iteration
takes `divmod(value, base) = (value / base, value % base)` (both operands
non-negative) and emits `charAt(remainder)`; the source pushes digits and
reverses at the end, which is the same as appending each digit after the
recursive result here.  A zero base reproduces `divmod`'s division-by-zero
error; fuel exhaustion models the source's divergence on base 1. -/
def encodeAux (alphabet : List Char) : Nat → Nat → Except String (List Char)
  | _, 0 => .ok []
  | 0, _ + 1 => .error "loop limit"
  | fuel + 1, v + 1 =>
    if alphabet.length = 0 then .error "division by zero"
    else
      match charAt alphabet ((v + 1) % alphabet.length : Nat) with
      | .error e => .error e
      | .ok c =>
        match encodeAux alphabet fuel ((v + 1) / alphabet.length) with
        | .error e => .error e
        | .ok rest => .ok (rest ++ [c])

/-- `encode(value, alphabet)` from src/utils/encode.ts: positional base-N
conversion, most-significant digit first, no padding; error on negative
values; a value below the base is a single character. -/
def encode (value : Int) (alphabet : List Char) : Except String (List Char) :=
  if value < 0 then .error "The value must be greater than or equal to zero."
  else if value < (alphabet.length : Int) then
    match charAt alphabet value with
    | .error e => .error e
    | .ok c => .ok [c]
  else encodeAux alphabet (value.toNat + 1) value.toNat

/-- The `reduce` of `decode` (src/utils/decode.ts) over the reversed character
list: position `i` contributes `indexOf(char) * base ^ i`. -/
def decodeAux (alphabet : List Char) : Nat → List Char → Except String Int
  | _, [] => .ok 0
  | i, c :: rest =>
    match indexOf alphabet c with
    | .error e => .error e
    | .ok d =>
      match decodeAux alphabet (i + 1) rest with
      | .error e => .error e
      | .ok acc => .ok (d * (alphabet.length : Int) ^ i + acc)

/-- `decode(value, alphabet)` from src/utils/decode.ts: a single character is
looked up directly; otherwise every character of the reversed string is summed
positionally (rightmost = least significant). -/
def decode (s : List Char) (alphabet : List Char) : Except String Int :=
  match s with
  | [c] => indexOf alphabet c
  | s => decodeAux alphabet 0 s.reverse

/-! ## Obfuskey (src/Obfuskey.ts)

An `Obfuskey` instance is determined by its alphabet, key length and
multiplier; the class methods become functions of those three values.  The
constructor's multiplier check (`!(multiplier & 1n)` raises MultiplierError)
is quantified over in the theorems. -/

/-- `Obfuskey.maximumValue`: `base ^ keyLength - 1`. -/
def maximumValue (alphabet : List Char) (keyLength : Nat) : Int :=
  (alphabet.length : Int) ^ keyLength - 1

/-- `Obfuskey.emptyKey`: `''.padStart(keyLength, charAt(0))` — `keyLength`
copies of the alphabet's zero symbol; evaluating `charAt(0)` throws on an
empty alphabet. -/
def emptyKey (alphabet : List Char) (keyLength : Nat) : Except String (List Char) :=
  match charAt alphabet 0 with
  | .error e => .error e
  | .ok z => .ok (List.replicate keyLength z)

/-- JavaScript `String.prototype.padStart(n, c)` for a single pad character:
left-pad to length `n` (no-op when already that long). -/
def padStart (s : List Char) (n : Nat) (c : Char) : List Char :=
  List.replicate (n - s.length) c ++ s

/-- `Obfuskey.getKey(value)` (src/Obfuskey.ts): range-check, special-case 0 to
the empty key, else `raw = (value * multiplier) % (maximumValue + 1)` (JS
truncated `%`), encode and left-pad with the zero symbol. -/
def getKey (alphabet : List Char) (keyLength : Nat) (multiplier : Int)
    (value : Int) : Except String (List Char) :=
  if value < 0 then .error "The value must be greater than or equal to zero."
  else if value > maximumValue alphabet keyLength then .error "MaximumValueError"
  else if value = 0 then emptyKey alphabet keyLength
  else
    let rawValue := (value * multiplier).tmod (maximumValue alphabet keyLength + 1)
    match encode rawValue alphabet with
    | .error e => .error e
    | .ok encodedValue =>
      match charAt alphabet 0 with
      | .error e => .error e
      | .ok z => .ok (padStart encodedValue keyLength z)

/-- `Obfuskey.getValue(key)` (src/Obfuskey.ts): KeyLengthError unless the key
has exactly `keyLength` characters; the all-zero-symbol key decodes to 0;
otherwise decode and multiply by `modInv(multiplier, maximumValue + 1)`
modulo `maximumValue + 1`. -/
def getValue (alphabet : List Char) (keyLength : Nat) (multiplier : Int)
    (key : List Char) : Except String Int :=
  if key.length ≠ keyLength then .error "KeyLengthError"
  else
    match emptyKey alphabet keyLength with
    | .error e => .error e
    | .ok ek =>
      if key = ek then .ok 0
      else
        match decode key alphabet with
        | .error e => .error e
        | .ok d =>
          let N := maximumValue alphabet keyLength + 1
          match modInv multiplier N with
          | .error e => .error e
          | .ok inv => .ok ((d * inv).tmod N)

/-! ## Obfusbit schema and packer (src/ObfusbitSchema.ts, src/Obfusbit.ts) -/

/-- One field of a bit-packing schema: a name and a bit width.  (In the typed
source, `name` is statically a string and `bits` statically a BigInt; the
runtime `typeof` checks of `validateSchemaItem` cannot fail here.  Negative
bit widths are folded into the `bits = 0` failure case of the `Nat` model.) -/
structure FieldSchema where
  name : String
  bits : Nat
deriving DecidableEq

/-- A schema definition: the ordered list of its fields. -/
abbrev SchemaDefinition := List FieldSchema

/-- Bits and shift of one field, as computed by
`ObfusbitSchema.calculateFieldInfo`. -/
structure FieldInfo where
  bits : Nat
  shift : Nat
deriving DecidableEq

/-- `ObfusbitSchema.validateSchemaItem` (src/ObfusbitSchema.ts): positive bit
width and a not-yet-seen name; the name's content is never inspected. -/
def validateSchemaItem (f : FieldSchema) (seenFields : List String) : Except String Unit :=
  if f.bits = 0 then
    .error "SchemaValidationError: bits must be a positive integer"
  else if f.name ∈ seenFields then
    .error "SchemaValidationError: schema contains duplicate name"
  else .ok ()

/-- The enumeration loop of `ObfusbitSchema.validateSchema`, threading the set
of already-seen field names (modelled as the list of names in order). -/
def validateSchemaAux : SchemaDefinition → List String → Except String Unit
  | [], _ => .ok ()
  | f :: rest, seen =>
    match validateSchemaItem f seen with
    | .error e => .error e
    | .ok _ => validateSchemaAux rest (seen ++ [f.name])

/-- `ObfusbitSchema.validateSchema` (src/ObfusbitSchema.ts). -/
def validateSchema (schema : SchemaDefinition) : Except String Unit :=
  validateSchemaAux schema []

/-- `ObfusbitSchema.totalBits`: `schema.reduce((sum, field) => sum + field.bits, 0n)`. -/
def totalBits (schema : SchemaDefinition) : Nat :=
  schema.foldl (fun sum f => sum + f.bits) 0

/-- `ObfusbitSchema.maximumValue`: `(1n << totalBits) - 1n`. -/
def schemaMaximumValue (schema : SchemaDefinition) : Nat :=
  (1 <<< totalBits schema) - 1

/-- The reverse traversal of `ObfusbitSchema.calculateFieldInfo`, accumulating
shifts from the least-significant end: the resulting association list is in
the insertion order of the source's record (last-listed field first). -/
def calculateFieldInfoAux : SchemaDefinition → Nat → List (String × FieldInfo)
  | [], _ => []
  | f :: rest, currentShift =>
    (f.name, ⟨f.bits, currentShift⟩) :: calculateFieldInfoAux rest (currentShift + f.bits)

/-- `ObfusbitSchema.calculateFieldInfo` (src/ObfusbitSchema.ts): per-field bits
and shift, iterating the reversed schema with `currentShift` starting at 0. -/
def calculateFieldInfo (schema : SchemaDefinition) : List (String × FieldInfo) :=
  calculateFieldInfoAux schema.reverse 0

/-- `ObfusbitSchema.getFieldInfo(name)` (src/ObfusbitSchema.ts): ValueError
when the name is not among the schema's field names, else the stored record
entry.  (For a validated — duplicate-free — schema the association-list lookup
and the source's record access agree.) -/
def getFieldInfo (schema : SchemaDefinition) (name : String) : Except String FieldInfo :=
  if (schema.map FieldSchema.name).contains name then
    match (calculateFieldInfo schema).lookup name with
    | some fi => .ok fi
    | none => .error "unreachable: name was in fieldNames"
  else .error "ValueError: field not found in the schema definition"

/-- The per-entry range check of `ObfusbitSchema.validateFields`: each provided
value must satisfy `0 ≤ value < 1 << bits` for its field, else
BitOverflowError. -/
def checkFieldRanges (schema : SchemaDefinition) : List (String × Int) → Except String Unit
  | [] => .ok ()
  | (name, value) :: rest =>
    match (calculateFieldInfo schema).lookup name with
    | none => .error "unreachable: unexpected field was already rejected"
    | some fi =>
      if value < 0 ∨ value ≥ ((1 <<< fi.bits : Nat) : Int) then
        .error "BitOverflowError"
      else checkFieldRanges schema rest

/-- `ObfusbitSchema.validateFields(fields)` (src/ObfusbitSchema.ts): the
provided key set must contain every schema field name (missing names are a
SchemaValidationError) and nothing else (extra names are a ValueError), and
every value must fit its field's bit width. -/
def validateFields (schema : SchemaDefinition) (fields : List (String × Int)) :
    Except String Unit :=
  let fieldNames := fields.map Prod.fst
  let schemaNames := schema.map FieldSchema.name
  let missingFields := schemaNames.filter (fun f => !(fieldNames.contains f))
  if missingFields ≠ [] then
    .error "SchemaValidationError: required fields are missing"
  else
    let extraFields := fieldNames.filter (fun f => !(schemaNames.contains f))
    if extraFields ≠ [] then
      .error "ValueError: unexpected fields provided in input values"
    else checkFieldRanges schema fields

/-- The packing loop of `Obfusbit.pack` (src/Obfusbit.ts):
`packedInt |= values[fieldName] << info.shift` over the entries of
`fieldInfo` (in their insertion order).  Values have been validated
non-negative, so `value << shift` is `value.toNat <<< shift`; a missing
value (impossible after validation) is reported as an error. -/
def packLoop (values : List (String × Int)) :
    List (String × FieldInfo) → Nat → Except String Nat
  | [], acc => .ok acc
  | (name, fi) :: rest, acc =>
    match values.lookup name with
    | none => .error "TypeError: undefined field value"
    | some v => packLoop values rest (acc ||| (v.toNat <<< fi.shift))

/-- `Obfusbit.pack(values, obfuscate)` (src/Obfusbit.ts) for an `Obfusbit`
constructed without an `Obfuskey`: validate, OR each value shifted into
place, and return the packed integer (requesting obfuscation without an
`Obfuskey` is a ValueError). -/
def pack (schema : SchemaDefinition) (values : List (String × Int))
    (obfuscate : Bool := false) : Except String Nat :=
  match validateFields schema values with
  | .error e => .error e
  | .ok _ =>
    match packLoop values (calculateFieldInfo schema) 0 with
    | .error e => .error e
    | .ok packedInt =>
      if obfuscate then
        .error "An Obfuskey instance was not provided during initialization"
      else .ok packedInt

/-- The extraction loop of `Obfusbit.unpack`: per schema field (in definition
order), `value = (packedInt >> info.shift) & ((1 << info.bits) - 1)`. -/
def unpackLoop (schema : SchemaDefinition) (packedInt : Nat) :
    SchemaDefinition → Except String (List (String × Nat))
  | [] => .ok []
  | f :: rest =>
    match getFieldInfo schema f.name with
    | .error e => .error e
    | .ok fi =>
      let mask := (1 <<< fi.bits) - 1
      let value := (packedInt >>> fi.shift) &&& mask
      match unpackLoop schema packedInt rest with
      | .error e => .error e
      | .ok tail => .ok ((f.name, value) :: tail)

/-- `Obfusbit.unpack(packedData, obfuscated)` (src/Obfusbit.ts) for an
`Obfusbit` constructed without an `Obfuskey` and a (non-negative) BigInt
input: no range check of any kind on `packedData`; each field is masked and
shifted out.  Requesting de-obfuscation without an `Obfuskey` is a
ValueError. -/
def unpack (schema : SchemaDefinition) (packedData : Nat)
    (obfuscated : Bool := false) : Except String (List (String × Nat)) :=
  if obfuscated then
    .error "An Obfuskey instance was not provided during initialization"
  else unpackLoop schema packedData schema

deriving instance DecidableEq for Except

theorem ok_bind {α β : Type} (a : α) (f : α → Except String β) :
    (Except.ok a : Except String α) >>= f = f a := rfl

theorem error_bind {α β : Type} (e : String) (f : α → Except String β) :
    (Except.error e : Except String α) >>= f = Except.error e := rfl

/-! ## Lemmas: gcd -/

theorem gcdLoop_eq_gcd : ∀ (fuel a b : Nat), b < fuel → gcdLoop fuel a b = Nat.gcd a b := by
  intro fuel
  induction fuel with
  | zero => intro a b h; omega
  | succ fuel ih =>
    intro a b h
    match b with
    | 0 => simp [gcdLoop]
    | b + 1 =>
      have hmod : a % (b + 1) < b + 1 := Nat.mod_lt a (by omega)
      rw [gcdLoop, ih (b + 1) (a % (b + 1)) (by omega)]
      rw [Nat.gcd_comm, ← Nat.gcd_rec, Nat.gcd_comm]

theorem gcd_eq_int_gcd (a b : Int) : gcd a b = (Int.gcd a b : Int) := by
  rw [gcd, gcdLoop_eq_gcd _ _ _ (Nat.lt_succ_self _), Int.gcd]

/-! ## Lemmas: bit length -/

theorem bitLenLoop_spec : ∀ (fuel n : Nat), n < fuel →
    n < 2 ^ bitLenLoop fuel n ∧ ∀ k, n < 2 ^ k → bitLenLoop fuel n ≤ k := by
  intro fuel
  induction fuel with
  | zero => intro n h; omega
  | succ fuel ih =>
    intro n h
    by_cases hn : n = 0
    · subst hn; simp [bitLenLoop]
    · have h2 : n / 2 < fuel := by omega
      obtain ⟨ih1, ih2⟩ := ih (n / 2) h2
      rw [bitLenLoop, if_neg hn]
      constructor
      · have : 2 ^ (bitLenLoop fuel (n / 2) + 1) = 2 * 2 ^ bitLenLoop fuel (n / 2) := by ring
        omega
      · intro k hk
        have hk1 : 1 ≤ k := by
          by_contra hc
          interval_cases k
          omega
        have hpow : 2 ^ (k - 1) * 2 = 2 ^ k := by
          rw [← pow_succ]
          congr 1
          omega
        have : n / 2 < 2 ^ (k - 1) := by
          rw [Nat.div_lt_iff_lt_mul (by norm_num)]
          omega
        have := ih2 (k - 1) this
        omega

theorem getBitLength_lt : ∀ n : Nat, n < 2 ^ getBitLength n :=
  fun n => (bitLenLoop_spec (n + 1) n (Nat.lt_succ_self n)).1

theorem getBitLength_le (n k : Nat) (h : n < 2 ^ k) : getBitLength n ≤ k :=
  (bitLenLoop_spec (n + 1) n (Nat.lt_succ_self n)).2 k h

/-! ## Lemmas: integer square root -/

/-- Any Newton step from a positive point stays at or above the integer square
root: `sqrt n ≤ (x + n / x) / 2` for `x > 0`. -/
theorem sqrt_le_newton_step (n x : Nat) (hx : 0 < x) :
    Nat.sqrt n ≤ (x + n / x) / 2 := by
  set s := Nat.sqrt n with hs
  rcases Nat.eq_zero_or_pos s with h0 | hpos
  · rw [h0]
    exact Nat.zero_le _
  have hsq : s * s ≤ n := by
    have h := Nat.sqrt_le' n
    rwa [pow_two] at h
  have hdiv : s * s / x ≤ n / x := Nat.div_le_div_right hsq
  have hstep : 2 * s ≤ x + s * s / x := by
    by_contra hc
    push_neg at hc
    have h1 : x * (s * s / x) + s * s % x = s * s := Nat.div_add_mod (s * s) x
    have h2 : s * s % x < x := Nat.mod_lt _ hx
    have h3 : 2 * s * x ≤ s * s + x * x := by
      have h := two_mul_le_add_sq s x
      rw [pow_two, pow_two] at h
      linarith
    have h4 : x + s * s / x + 1 ≤ 2 * s := hc
    have h5 : x * (x + s * s / x + 1) ≤ x * (2 * s) := Nat.mul_le_mul_left x h4
    nlinarith [h1, h2, h3, h5]
  omega

/-- From strictly above the integer square root, a Newton step strictly
decreases: `sqrt n < x → (x + n / x) / 2 < x`. -/
theorem newton_step_lt (n x : Nat) (hx : Nat.sqrt n < x) :
    (x + n / x) / 2 < x := by
  set s := Nat.sqrt n with hs
  have hn : n < (s + 1) * (s + 1) := by
    have h := Nat.lt_succ_sqrt' n
    rwa [Nat.succ_eq_add_one, pow_two] at h
  have h1 : n / x ≤ n / (s + 1) := Nat.div_le_div_left hx (by omega)
  have h2 : n / (s + 1) ≤ s := by
    have h := (Nat.div_lt_iff_lt_mul (by omega : 0 < s + 1)).2 hn
    omega
  omega

/-- The Newton loop of `isqrt` computes `Nat.sqrt`: starting from any `x0 > 0`
at or above the root, with `x1` the Newton step of `x0` and enough fuel. -/
theorem isqrtLoop_eq_sqrt (n : Nat) (hn : 1 ≤ Nat.sqrt n) :
    ∀ (fuel x0 : Nat), 0 < x0 → Nat.sqrt n ≤ x0 →
      Nat.sqrt n ≤ x0 → x0 - Nat.sqrt n < fuel →
      isqrtLoop n fuel x0 ((x0 + n / x0) / 2) = Nat.sqrt n := by
  intro fuel
  induction fuel with
  | zero => intro x0 _ _ _ h; omega
  | succ fuel ih =>
    intro x0 hx0 hs0 _ hfuel
    set x1 := (x0 + n / x0) / 2 with hx1def
    rw [isqrtLoop]
    by_cases hlt : x1 < x0
    · rw [if_pos hlt]
      have hs1 : Nat.sqrt n ≤ x1 := sqrt_le_newton_step n x0 hx0
      exact ih x1 (by omega) hs1 hs1 (by omega)
    · rw [if_neg hlt]
      by_contra hne
      have hgt : Nat.sqrt n < x0 := by omega
      exact hlt (newton_step_lt n x0 hgt)

/-- `isqrt` computes the integer square root of any non-negative input
(helper for the claim theorem). -/
theorem isqrt_ok (n : Int) (hn : 0 ≤ n) :
    isqrt n = .ok (Nat.sqrt n.toNat : Int) := by
  simp only [isqrt]
  rw [if_neg (by omega)]
  by_cases h2 : n < 2
  · rw [if_pos h2]
    have : n = 0 ∨ n = 1 := by omega
    rcases this with h | h <;> subst h <;> simp
  · rw [if_neg h2]
    set m := n.toNat with hm
    have hm2 : 2 ≤ m := by omega
    have hsict : 1 ≤ Nat.sqrt m := by
      have h := Nat.sqrt_le_sqrt (show 1 ≤ m by omega)
      rwa [Nat.sqrt_one] at h
    have hx0pos : 0 < 1 <<< ((getBitLength m + 1) / 2) := by
      rw [Nat.shiftLeft_eq, one_mul]
      positivity
    have hx0ge : Nat.sqrt m ≤ 1 <<< ((getBitLength m + 1) / 2) := by
      set b := getBitLength m with hb
      have hlt : m < 2 ^ b := getBitLength_lt m
      have hble : b ≤ 2 * ((b + 1) / 2) := by omega
      have hmlt : m < (2 ^ ((b + 1) / 2)) ^ 2 := by
        calc m < 2 ^ b := hlt
        _ ≤ 2 ^ (2 * ((b + 1) / 2)) := Nat.pow_le_pow_right (by norm_num) hble
        _ = (2 ^ ((b + 1) / 2)) ^ 2 := by rw [← pow_mul, Nat.mul_comm]
      have h := Nat.sqrt_lt'.2 hmlt
      rw [Nat.shiftLeft_eq, one_mul]
      omega
    rw [isqrtLoop_eq_sqrt m hsict _ _ hx0pos hx0ge hx0ge (by omega)]

/-- C9: For every non-negative BigInt `n`, `isqrt(n)` terminates and returns
the unique non-negative integer `r` with `r·r ≤ n < (r+1)·(r+1)`.  (The
embedding is total, which reflects termination of the source's Newton loop.) -/
theorem isqrt_spec (n : Int) (hn : 0 ≤ n) :
    ∃ r : Int, isqrt n = .ok r ∧ 0 ≤ r ∧ r * r ≤ n ∧ n < (r + 1) * (r + 1) := by
  refine ⟨(Nat.sqrt n.toNat : Int), isqrt_ok n hn, by positivity, ?_, ?_⟩
  · have h : Nat.sqrt n.toNat * Nat.sqrt n.toNat ≤ n.toNat := by
      have h := Nat.sqrt_le' n.toNat
      rwa [pow_two] at h
    have h2 : ((Nat.sqrt n.toNat * Nat.sqrt n.toNat : Nat) : Int) ≤ ((n.toNat : Nat) : Int) :=
      Int.ofNat_le.2 h
    push_cast at h2
    omega
  · have h : n.toNat < (Nat.sqrt n.toNat + 1) * (Nat.sqrt n.toNat + 1) := by
      have h := Nat.lt_succ_sqrt' n.toNat
      rwa [Nat.succ_eq_add_one, pow_two] at h
    have h2 : ((n.toNat : Nat) : Int) < (((Nat.sqrt n.toNat + 1) * (Nat.sqrt n.toNat + 1) : Nat) : Int) :=
      Int.ofNat_lt.2 h
    push_cast at h2
    omega

/-- Witness for C9 at `n = 10`: `isqrt 10 = 3` with `9 ≤ 10 < 16`. -/
theorem isqrt_spec_witness :
    ∃ r : Int, isqrt 10 = .ok r ∧ 0 ≤ r ∧ r * r ≤ 10 ∧ (10 : Int) < (r + 1) * (r + 1) :=
  isqrt_spec 10 (by norm_num)

/-! ## Lemmas: modular inverse -/

theorem int_gcd_sub_mul_left (a m k : Int) : Int.gcd (a - m * k) m = Int.gcd a m := by
  apply Nat.dvd_antisymm
  · have h1 : ((Int.gcd (a - m * k) m : Nat) : Int) ∣ (a - m * k) := Int.gcd_dvd_left
    have h2 : ((Int.gcd (a - m * k) m : Nat) : Int) ∣ m := Int.gcd_dvd_right
    have h3 : ((Int.gcd (a - m * k) m : Nat) : Int) ∣ a := by
      have h4 := dvd_add h1 (h2.mul_right k)
      simpa using h4
    have h5 := Int.dvd_gcd h3 h2
    exact Int.ofNat_dvd.mp (by exact_mod_cast h5)
  · have h1 : ((Int.gcd a m : Nat) : Int) ∣ a := Int.gcd_dvd_left
    have h2 : ((Int.gcd a m : Nat) : Int) ∣ m := Int.gcd_dvd_right
    have h3 : ((Int.gcd a m : Nat) : Int) ∣ (a - m * k) := dvd_sub h1 (h2.mul_right k)
    have h5 := Int.dvd_gcd h3 h2
    exact Int.ofNat_dvd.mp (by exact_mod_cast h5)

/-- The gcd of an integer and a modulus is unchanged by reducing mod the
modulus. -/
theorem int_gcd_emod (a m : Int) : Int.gcd (a % m) m = Int.gcd a m := by
  rw [Int.emod_def]
  exact int_gcd_sub_mul_left a m (a / m)

/-- The source's double-`%` normalisation `((t % m) + m) % m` (JS truncated
`%`) equals the mathematical `t mod m` for a positive modulus. -/
theorem tmod_norm (m t : Int) (hm : 0 < m) : ((t.tmod m) + m).tmod m = t % m := by
  have hub : t.tmod m < m := Int.tmod_lt_of_pos t hm
  have hlb : -m < t.tmod m := by
    rcases le_or_lt 0 t with h | h
    · have := Int.tmod_nonneg m h
      omega
    · have h1 : (0 : Int) ≤ -t := by omega
      have h2 : (-t).tmod m < m := Int.tmod_lt_of_pos (-t) hm
      have h3 : (-t).tmod m = -(t.tmod m) := by
        rw [Int.tmod_def, Int.tmod_def, Int.neg_tdiv]
        ring
      omega
  have hnn : (0 : Int) ≤ t.tmod m + m := by omega
  rw [Int.tmod_eq_emod hnn (by omega)]
  have h4 : (t.tmod m + m) % m = (t.tmod m) % m := by
    conv_lhs => rw [show t.tmod m + m = t.tmod m + m * 1 by ring]
    exact Int.add_mul_emod_self_left _ _ _
  rw [h4, Int.tmod_def, show t - m * t.tdiv m = t + m * (-(t.tdiv m)) by ring]
  exact Int.add_mul_emod_self_left _ _ _

theorem egcdLoop_fst : ∀ (fuel rPrev rCurr : Nat) (tPrev tCurr : Int),
    rCurr < fuel → (egcdLoop fuel rPrev rCurr tPrev tCurr).1 = Nat.gcd rCurr rPrev := by
  intro fuel
  induction fuel with
  | zero => intro _ _ _ _ h; omega
  | succ fuel ih =>
    intro rPrev rCurr tPrev tCurr h
    match rCurr with
    | 0 => simp [egcdLoop]
    | c + 1 =>
      have hq : rPrev - rPrev / (c + 1) * (c + 1) = rPrev % (c + 1) := by
        have h1 : (c + 1) * (rPrev / (c + 1)) + rPrev % (c + 1) = rPrev :=
          Nat.div_add_mod rPrev (c + 1)
        have h2 : rPrev / (c + 1) * (c + 1) = (c + 1) * (rPrev / (c + 1)) :=
          Nat.mul_comm _ _
        omega
      have hmod : rPrev % (c + 1) < c + 1 := Nat.mod_lt _ (by omega)
      simp only [egcdLoop]
      rw [hq, ih (c + 1) (rPrev % (c + 1)) tCurr _ (by omega)]
      exact (Nat.gcd_rec (c + 1) rPrev).symm

theorem egcdLoop_bezout (m a : Int) : ∀ (fuel rPrev rCurr : Nat) (tPrev tCurr : Int),
    (∃ s : Int, (rPrev : Int) = s * m + tPrev * a) →
    (∃ s : Int, (rCurr : Int) = s * m + tCurr * a) →
    ∃ s : Int, ((egcdLoop fuel rPrev rCurr tPrev tCurr).1 : Int) =
      s * m + (egcdLoop fuel rPrev rCurr tPrev tCurr).2 * a := by
  intro fuel
  induction fuel with
  | zero => intro rPrev rCurr tPrev tCurr h1 _; exact h1
  | succ fuel ih =>
    intro rPrev rCurr tPrev tCurr h1 h2
    match rCurr with
    | 0 => exact h1
    | c + 1 =>
      simp only [egcdLoop]
      apply ih
      · exact h2
      · obtain ⟨s1, hs1⟩ := h1
        obtain ⟨s2, hs2⟩ := h2
        refine ⟨s1 - (↑(rPrev / (c + 1)) : Int) * s2, ?_⟩
        have hle : rPrev / (c + 1) * (c + 1) ≤ rPrev := Nat.div_mul_le_self rPrev (c + 1)
        have hcast : ((rPrev - rPrev / (c + 1) * (c + 1) : Nat) : Int) =
            (rPrev : Int) - (↑(rPrev / (c + 1)) : Int) * (((c + 1 : Nat) : Nat) : Int) := by
          push_cast [hle]
          ring
        rw [hcast, hs1, hs2]
        ring

/-- Full characterisation of `modInv` for a positive modulus: it fails exactly
when `gcd(a mod m, m) ≠ 1`, and on success returns the canonical representative
of the inverse (helper for the claim theorem). -/
theorem modInv_cases (a m : Int) (hm : 0 < m) :
    (Int.gcd (a % m) m ≠ 1 → ∃ e, modInv a m = .error e) ∧
    (Int.gcd (a % m) m = 1 → ∃ x, modInv a m = .ok x ∧ 0 ≤ x ∧ x < m ∧
      (a * x) % m = 1 % m) := by
  have haInit : ((a.tmod m) + m).tmod m = a % m := tmod_norm m a hm
  simp only [modInv]
  rw [if_neg (show ¬ m ≤ 0 by omega), haInit]
  have haNN : 0 ≤ a % m := Int.emod_nonneg a (by omega)
  have haLT : a % m < m := Int.emod_lt_of_pos a hm
  have htoNat : (((a % m).toNat : Nat) : Int) = a % m := Int.toNat_of_nonneg haNN
  have hmtoNat : ((m.toNat : Nat) : Int) = m := Int.toNat_of_nonneg (by omega)
  set res := egcdLoop ((a % m).toNat + 1) m.toNat (a % m).toNat 0 1 with hres
  have hfst : res.1 = Nat.gcd (a % m).toNat m.toNat :=
    egcdLoop_fst _ _ _ _ _ (Nat.lt_succ_self _)
  have hgcd : Nat.gcd (a % m).toNat m.toNat = Int.gcd (a % m) m := by
    rw [Int.gcd]
    congr 1 <;> omega
  constructor
  · intro hne
    have hne1 : res.1 ≠ 1 := by rw [hfst, hgcd]; exact hne
    exact ⟨_, by rw [if_pos hne1]⟩
  · intro heq
    have hone : res.1 = 1 := by rw [hfst, hgcd]; exact heq
    rw [if_neg (show ¬ res.1 ≠ 1 by omega)]
    refine ⟨_, rfl, ?_, ?_, ?_⟩
    · rw [tmod_norm m res.2 hm]
      exact Int.emod_nonneg _ (by omega)
    · rw [tmod_norm m res.2 hm]
      exact Int.emod_lt_of_pos _ hm
    · rw [tmod_norm m res.2 hm]
      obtain ⟨s, hs⟩ := egcdLoop_bezout m (a % m) ((a % m).toNat + 1) m.toNat (a % m).toNat 0 1
        ⟨1, by rw [hmtoNat]; ring⟩ ⟨0, by rw [htoNat]; ring⟩
      rw [← hres, hone] at hs
      push_cast at hs
      -- hs : 1 = s * m + res.2 * (a % m)
      have hprod : (a % m) * res.2 = 1 + m * (-s) := by linarith [hs]
      calc (a * (res.2 % m)) % m
          = ((a % m) * ((res.2 % m) % m)) % m := Int.mul_emod a (res.2 % m) m
        _ = ((a % m) * (res.2 % m)) % m := by rw [Int.emod_emod]
        _ = ((a % m) % m * (res.2 % m)) % m := by rw [Int.emod_emod]
        _ = ((a % m) * res.2) % m := (Int.mul_emod (a % m) res.2 m).symm
        _ = (1 + m * (-s)) % m := by rw [hprod]
        _ = 1 % m := Int.add_mul_emod_self_left 1 m (-s)

/-- C4, counterexample: at `a = 1, m = 1` we have `gcd(1, 1) = 1` and `m`
positive, yet `modInv(1, 1)` returns `0` and `(1 * 0) mod 1 = 0 ≠ 1`: the
claimed product equation fails for `m = 1`. -/
theorem modInv_mod_one_counterexample :
    Int.gcd 1 1 = 1 ∧ modInv 1 1 = .ok 0 ∧ ¬(((1 : Int) * 0) % 1 = 1) :=
  ⟨rfl, rfl, by decide⟩

/-- C4 (amended): for every BigInt `a` and positive `m`, `modInv(a, m)` fails
with a not-invertible error exactly when `gcd(a mod m, m) ≠ 1`; and whenever
`gcd(a, m) = 1` and `m > 1` it returns `x` with `(a * x) mod m = 1`. -/
theorem modInv_spec (a m : Int) (hm : 0 < m) :
    ((∃ e, modInv a m = .error e) ↔ Int.gcd (a % m) m ≠ 1) ∧
    (Int.gcd a m = 1 → 1 < m → ∃ x, modInv a m = .ok x ∧ (a * x) % m = 1) := by
  obtain ⟨hfail, hok⟩ := modInv_cases a m hm
  constructor
  · constructor
    · rintro ⟨e, he⟩ hgcd
      obtain ⟨x, hx, _, _, _⟩ := hok hgcd
      rw [he] at hx
      exact absurd hx (by simp)
    · exact hfail
  · intro hgcd hm1
    have hgcd' : Int.gcd (a % m) m = 1 := by rw [int_gcd_emod]; exact hgcd
    obtain ⟨x, hx, _, _, hmul⟩ := hok hgcd'
    refine ⟨x, hx, ?_⟩
    rw [hmul, Int.emod_eq_of_lt (by norm_num) hm1]

/-- Witness for C4 at `a = 7, m = 256`. -/
theorem modInv_spec_witness :
    ((∃ e, modInv 7 256 = .error e) ↔ Int.gcd ((7 : Int) % 256) 256 ≠ 1) ∧
    (Int.gcd (7 : Int) 256 = 1 → (1 : Int) < 256 →
      ∃ x, modInv 7 256 = .ok x ∧ ((7 : Int) * x) % 256 = 1) :=
  modInv_spec 7 256 (by norm_num)

/-! ## Lemmas: alphabet codec -/

/-- The mathematical value of a digit string over an alphabet (most-significant
digit first); proof-side companion of `encode`/`decode`. -/
def valOf (alphabet : List Char) : List Char → Nat
  | [] => 0
  | c :: rest => alphabet.indexOf c * alphabet.length ^ rest.length + valOf alphabet rest

/-- Proof-side companion of `decodeAux`: the positional value of a
least-significant-first digit string starting at position `i`. -/
def valRev (alphabet : List Char) : Nat → List Char → Nat
  | _, [] => 0
  | i, c :: rest => alphabet.indexOf c * alphabet.length ^ i + valRev alphabet (i + 1) rest

theorem charAt_nat (alphabet : List Char) (i : Nat) (h : i < alphabet.length) :
    charAt alphabet (i : Int) = .ok (alphabet.get ⟨i, h⟩) := by
  rw [charAt, dif_pos ⟨Int.natCast_nonneg i, by simpa using h⟩]
  simp

theorem indexOf_mem (alphabet : List Char) (c : Char) (h : c ∈ alphabet) :
    indexOf alphabet c = .ok ((alphabet.indexOf c : Nat) : Int) := by
  rw [indexOf, if_pos h]

theorem indexOf_getElem (alphabet : List Char) (hnd : alphabet.Nodup) (i : Nat)
    (h : i < alphabet.length) : alphabet.indexOf alphabet[i] = i := by
  have hmem : alphabet[i] ∈ alphabet := List.getElem_mem h
  have hlt : alphabet.indexOf alphabet[i] < alphabet.length := List.indexOf_lt_length.2 hmem
  have heq : alphabet[alphabet.indexOf alphabet[i]] = alphabet[i] := List.getElem_indexOf hlt
  exact (List.Nodup.getElem_inj_iff hnd).1 heq

theorem valOf_append_singleton (alphabet : List Char) (xs : List Char) (c : Char) :
    valOf alphabet (xs ++ [c]) =
      valOf alphabet xs * alphabet.length + alphabet.indexOf c := by
  induction xs with
  | nil => simp [valOf]
  | cons x xs ih =>
    rw [List.cons_append, valOf, valOf, ih, List.length_append, List.length_singleton]
    ring

theorem valOf_replicate_prepend (alphabet : List Char) (z : Char)
    (hz : alphabet.indexOf z = 0) (m : Nat) (s : List Char) :
    valOf alphabet (List.replicate m z ++ s) = valOf alphabet s := by
  induction m with
  | zero => simp
  | succ m ih =>
    rw [List.replicate_succ, List.cons_append, valOf, hz, ih]
    ring

theorem valRev_append_singleton (alphabet : List Char) (c : Char) :
    ∀ (xs : List Char) (i : Nat),
      valRev alphabet i (xs ++ [c]) =
        valRev alphabet i xs + alphabet.indexOf c * alphabet.length ^ (i + xs.length) := by
  intro xs
  induction xs with
  | nil => intro i; simp [valRev]
  | cons x xs ih =>
    intro i
    rw [List.cons_append, valRev, valRev, ih, List.length_cons]
    ring_nf

theorem valRev_reverse (alphabet : List Char) (s : List Char) :
    valRev alphabet 0 s.reverse = valOf alphabet s := by
  induction s with
  | nil => rfl
  | cons c rest ih =>
    rw [List.reverse_cons, valRev_append_singleton, ih, valOf]
    simp [Nat.add_comm]

theorem decodeAux_ok (alphabet : List Char) :
    ∀ (l : List Char) (i : Nat), (∀ c ∈ l, c ∈ alphabet) →
      decodeAux alphabet i l = .ok ((valRev alphabet i l : Nat) : Int) := by
  intro l
  induction l with
  | nil => intro i _; rfl
  | cons c rest ih =>
    intro i hmem
    rw [decodeAux, indexOf_mem alphabet c (hmem c (List.mem_cons_self c rest)),
      ih (i + 1) (fun x hx => hmem x (List.mem_cons_of_mem c hx)), valRev]
    push_cast
    ring_nf

theorem decode_ok (alphabet : List Char) (s : List Char)
    (hmem : ∀ c ∈ s, c ∈ alphabet) :
    decode s alphabet = .ok ((valOf alphabet s : Nat) : Int) := by
  match s with
  | [] => rfl
  | [c] =>
    rw [show decode [c] alphabet = indexOf alphabet c from rfl,
      indexOf_mem alphabet c (hmem c (List.mem_singleton_self c))]
    simp [valOf]
  | c1 :: c2 :: rest =>
    rw [show decode (c1 :: c2 :: rest) alphabet =
        decodeAux alphabet 0 (c1 :: c2 :: rest).reverse from rfl,
      decodeAux_ok alphabet _ 0 (fun x hx => hmem x (by simpa using List.mem_reverse.1 hx)),
      valRev_reverse]

theorem encodeAux_ok (alphabet : List Char) (hnd : alphabet.Nodup)
    (hbase : 2 ≤ alphabet.length) :
    ∀ (fuel v : Nat), v < fuel →
      ∃ ds, encodeAux alphabet fuel v = .ok ds ∧
        valOf alphabet ds = v ∧ (∀ c ∈ ds, c ∈ alphabet) ∧
        ∀ j, v < alphabet.length ^ j → ds.length ≤ j := by
  intro fuel
  induction fuel with
  | zero => intro v h; omega
  | succ fuel ih =>
    intro v h
    match v with
    | 0 => exact ⟨[], rfl, rfl, by simp, fun j _ => by simp⟩
    | w + 1 =>
      have hbne : ¬ alphabet.length = 0 := by omega
      have hrlt : (w + 1) % alphabet.length < alphabet.length :=
        Nat.mod_lt _ (by omega)
      have hqlt : (w + 1) / alphabet.length < fuel := by
        have h1 : (w + 1) / alphabet.length < w + 1 :=
          Nat.div_lt_self (by omega) (by omega)
        omega
      obtain ⟨ds', hok, hval, hmem, hlen⟩ := ih ((w + 1) / alphabet.length) hqlt
      refine ⟨ds' ++ [alphabet.get ⟨(w + 1) % alphabet.length, hrlt⟩], ?_, ?_, ?_, ?_⟩
      · rw [encodeAux, if_neg hbne, charAt_nat alphabet _ hrlt, hok]
      · rw [valOf_append_singleton, hval]
        rw [show alphabet.get ⟨(w + 1) % alphabet.length, hrlt⟩ =
            alphabet[(w + 1) % alphabet.length] from rfl,
          indexOf_getElem alphabet hnd _ hrlt]
        have hdm := Nat.div_add_mod (w + 1) alphabet.length
        have hcomm : (w + 1) / alphabet.length * alphabet.length =
            alphabet.length * ((w + 1) / alphabet.length) := Nat.mul_comm _ _
        omega
      · intro c hc
        rcases List.mem_append.1 hc with h1 | h1
        · exact hmem c h1
        · rw [List.mem_singleton.1 h1]
          exact List.getElem_mem hrlt
      · intro j hj
        have hj1 : 1 ≤ j := by
          by_contra hc
          have : j = 0 := by omega
          rw [this, pow_zero] at hj
          omega
        have hq : (w + 1) / alphabet.length < alphabet.length ^ (j - 1) := by
          rw [Nat.div_lt_iff_lt_mul (by omega)]
          have : alphabet.length ^ (j - 1) * alphabet.length = alphabet.length ^ j := by
            rw [← pow_succ]
            congr 1
            omega
          omega
        have := hlen (j - 1) hq
        rw [List.length_append, List.length_singleton]
        omega

theorem encode_ok (alphabet : List Char) (hnd : alphabet.Nodup)
    (hbase : 2 ≤ alphabet.length) (raw : Int) (h0 : 0 ≤ raw) :
    ∃ ds, encode raw alphabet = .ok ds ∧
      valOf alphabet ds = raw.toNat ∧ (∀ c ∈ ds, c ∈ alphabet) ∧
      ∀ j, 1 ≤ j → raw.toNat < alphabet.length ^ j → ds.length ≤ j := by
  rw [encode, if_neg (by omega)]
  by_cases hsmall : raw < (alphabet.length : Int)
  · rw [if_pos hsmall]
    have hlt : raw.toNat < alphabet.length := by omega
    have : charAt alphabet raw = .ok (alphabet.get ⟨raw.toNat, hlt⟩) := by
      have := charAt_nat alphabet raw.toNat hlt
      rwa [Int.toNat_of_nonneg h0] at this
    rw [this]
    refine ⟨[alphabet.get ⟨raw.toNat, hlt⟩], rfl, ?_, ?_, ?_⟩
    · rw [valOf, valOf]
      rw [show alphabet.get ⟨raw.toNat, hlt⟩ = alphabet[raw.toNat] from rfl,
        indexOf_getElem alphabet hnd _ hlt]
      simp
    · intro c hc
      rw [List.mem_singleton.1 hc]
      exact List.getElem_mem hlt
    · intro j hj _
      simpa using hj
  · rw [if_neg hsmall]
    obtain ⟨ds, hok, hval, hmem, hlen⟩ :=
      encodeAux_ok alphabet hnd hbase (raw.toNat + 1) raw.toNat (Nat.lt_succ_self _)
    exact ⟨ds, hok, hval, hmem, fun j _ hj => hlen j hj⟩

/-- C7, counterexample: for the hex alphabet, `encode(0)` returns the
one-character string `"0"`, not the empty string claimed by the spec. -/
theorem encode_zero_counterexample :
    encode 0 ("0123456789abcdef".toList) = .ok ['0'] ∧ (['0'] : List Char) ≠ [] :=
  ⟨rfl, by decide⟩

/-- C7 (amended): for every nonempty alphabet, `encode(0, alphabet)` returns
the one-character string holding the alphabet's zero symbol (index 0) — not
the empty string.  (`getKey`'s special case for value 0 still yields the
all-zero-symbol key, but because padding fills the rest, not because the
encoding of 0 is empty.) -/
theorem encode_zero_single_char (c : Char) (rest : List Char) :
    encode 0 (c :: rest) = .ok [c] := by
  have hlt : (0 : Int) < ((c :: rest).length : Int) := by
    rw [List.length_cons]
    positivity
  rw [encode, if_neg (by omega), if_pos hlt]
  have h0 : 0 < (c :: rest).length := by simp
  have := charAt_nat (c :: rest) 0 h0
  rw [show ((0 : Nat) : Int) = (0 : Int) from rfl] at this
  rw [this]
  rfl

/-! ## Lemmas: Obfuskey -/

/-- The `Obfuskey` constructor's multiplier validation (src/Obfuskey.ts):
`!(multiplier & 1n)` raises MultiplierError; `multiplier & 1n` is the
two's-complement parity bit, so a caller-supplied multiplier is accepted
exactly when it is odd — of either sign (`m & 1 ≠ 0 ↔ m % 2 ≠ 0`). -/
def multiplierOk (multiplier : Int) : Bool := multiplier % 2 != 0

theorem emptyKey_ok (alphabet : List Char) (k : Nat) (h : 0 < alphabet.length) :
    emptyKey alphabet k = .ok (List.replicate k (alphabet.get ⟨0, h⟩)) := by
  rw [emptyKey, show ((0 : Int)) = ((0 : Nat) : Int) from rfl, charAt_nat alphabet 0 h]

theorem one_le_base_pow (alphabet : List Char) (k : Nat) (h : alphabet ≠ []) :
    (1 : Int) ≤ (alphabet.length : Int) ^ k := by
  have hb1 : 1 ≤ alphabet.length := List.length_pos.2 h
  calc (1 : Int) = 1 ^ k := (one_pow k).symm
  _ ≤ (alphabet.length : Int) ^ k :=
      pow_le_pow_left₀ (by norm_num) (by exact_mod_cast hb1) k

/-- C3, counterexample: the Obfuskey constructor accepts the odd multiplier
`-3` (its low bit is set), yet on the duplicate-free binary alphabet with
`keyLength = 1` the in-range value `1` makes `getKey` throw — `(1 * -3) % 2`
is `-1` under JS truncated `%`, and `encode` rejects negative values — so no
1-character string is returned. -/
theorem getKey_length_counterexample :
    multiplierOk (-3) = true ∧
    List.Nodup ['0', '1'] ∧
    (0 : Int) ≤ 1 ∧ (1 : Int) ≤ maximumValue ['0', '1'] 1 ∧
    getKey ['0', '1'] 1 (-3) 1 =
      .error "The value must be greater than or equal to zero." :=
  ⟨by decide, by decide, by decide, by decide, rfl⟩

/-- C3 (amended): for every Obfuskey instance with a nonempty (duplicate-free)
alphabet and a non-negative multiplier, and every BigInt `v` with
`0 ≤ v ≤ maximumValue`, `getKey(v)` returns a string of exactly `keyLength`
characters. -/
theorem getKey_length_exact (alphabet : List Char) (k : Nat) (mult v : Int)
    (hnd : alphabet.Nodup) (hne : alphabet ≠ []) (hm : 0 ≤ mult)
    (hv0 : 0 ≤ v) (hvM : v ≤ maximumValue alphabet k) :
    ∃ s, getKey alphabet k mult v = .ok s ∧ s.length = k := by
  have hb1 : 0 < alphabet.length := List.length_pos.2 hne
  have hMnn : (0 : Int) ≤ maximumValue alphabet k := by
    have := one_le_base_pow alphabet k hne
    rw [maximumValue]
    omega
  by_cases hv : v = 0
  · subst hv
    refine ⟨List.replicate k (alphabet.get ⟨0, hb1⟩), ?_, List.length_replicate k _⟩
    rw [getKey, if_neg (by omega), if_neg (by omega), if_pos rfl]
    exact emptyKey_ok alphabet k hb1
  · have hv1 : 1 ≤ v := by omega
    have hM1 : (1 : Int) ≤ maximumValue alphabet k := le_trans hv1 hvM
    have hpow2 : (2 : Int) ≤ (alphabet.length : Int) ^ k := by
      rw [maximumValue] at hM1
      omega
    have hb2 : 2 ≤ alphabet.length := by
      by_contra hc
      have hb1' : alphabet.length = 1 := by omega
      rw [hb1'] at hpow2
      simp at hpow2
    have hk1 : 1 ≤ k := by
      by_contra hc
      have : k = 0 := by omega
      rw [this, pow_zero] at hpow2
      omega
    set N := maximumValue alphabet k + 1 with hN
    have hNval : N = (alphabet.length : Int) ^ k := by rw [hN, maximumValue]; ring
    have hNpos : 0 < N := by omega
    have hvm_nn : 0 ≤ v * mult := mul_nonneg (by omega) hm
    have hraw_eq : (v * mult).tmod N = (v * mult) % N :=
      Int.tmod_eq_emod hvm_nn (by omega)
    have hraw_nn : 0 ≤ (v * mult) % N := Int.emod_nonneg _ (by omega)
    have hraw_lt : (v * mult) % N < N := Int.emod_lt_of_pos _ hNpos
    have hrawNat : ((v * mult) % N).toNat < alphabet.length ^ k := by
      have : ((alphabet.length ^ k : Nat) : Int) = (alphabet.length : Int) ^ k := by
        push_cast
        ring
      omega
    obtain ⟨ds, hok, _, _, hlen⟩ :=
      encode_ok alphabet hnd hb2 ((v * mult) % N) hraw_nn
    have hdslen : ds.length ≤ k := hlen k hk1 hrawNat
    refine ⟨padStart ds k (alphabet.get ⟨0, hb1⟩), ?_, ?_⟩
    · simp only [getKey]
      rw [if_neg (by omega), if_neg (by omega), if_neg hv, ← hN, hraw_eq, hok,
        show ((0 : Int)) = ((0 : Nat) : Int) from rfl, charAt_nat alphabet 0 hb1]
    · rw [padStart, List.length_append, List.length_replicate]
      omega

/-- Witness for C3 at the binary alphabet, `keyLength = 3`, multiplier 5,
value 2. -/
theorem getKey_length_exact_witness :
    ∃ s, getKey ['0', '1'] 3 5 2 = .ok s ∧ s.length = 3 :=
  getKey_length_exact ['0', '1'] 3 5 2 (by decide) (by decide) (by decide)
    (by decide) (by decide)

theorem mul_inv_roundtrip (v mult x N : Int) (hv0 : 0 ≤ v) (hvN : v < N)
    (hinv : (mult * x) % N = 1) : (((v * mult) % N) * x) % N = v := by
  have h1 : (((v * mult) % N) * x) % N = ((v * mult) * x) % N := by
    rw [Int.mul_emod ((v * mult) % N) x N, Int.emod_emod, ← Int.mul_emod]
  rw [h1, show v * mult * x = v * (mult * x) by ring, Int.mul_emod v (mult * x) N, hinv]
  rw [show (v % N) * 1 = v % N by ring, Int.emod_emod]
  exact Int.emod_eq_of_lt hv0 hvN

/-- C1, counterexample: on the duplicate-free base-3 alphabet `"012"` with
`keyLength = 1`, the constructor-accepted odd multiplier 3 is not coprime to
`maximumValue + 1 = 3`.  For the in-range value 1, `raw = (1 * 3) mod 3 = 0`,
so the key is the all-zero key `"0"` and `getValue` returns 0, not 1: the
round trip fails without any error being raised. -/
theorem obfuskey_roundtrip_counterexample :
    multiplierOk 3 = true ∧
    List.Nodup ['0', '1', '2'] ∧
    (0 : Int) ≤ 1 ∧ (1 : Int) ≤ maximumValue ['0', '1', '2'] 1 ∧
    getKey ['0', '1', '2'] 1 3 1 = .ok ['0'] ∧
    getValue ['0', '1', '2'] 1 3 ['0'] = .ok 0 ∧
    getValue ['0', '1', '2'] 1 3 ['0'] ≠ .ok 1 :=
  ⟨by decide, by decide, by decide, by decide, rfl, rfl, by decide⟩

/-- C1 (amended): for every Obfuskey instance over a nonempty duplicate-free
alphabet whose (odd) multiplier is positive and coprime to
`maximumValue + 1 = base ^ keyLength`, and every BigInt `v` with
`0 ≤ v ≤ maximumValue`, `getValue(getKey(v))` returns `v`. -/
theorem obfuskey_roundtrip (alphabet : List Char) (k : Nat) (mult v : Int)
    (hnd : alphabet.Nodup) (hne : alphabet ≠ [])
    (hm : 0 < mult)
    (hc : Int.gcd mult ((alphabet.length : Int) ^ k) = 1)
    (hv0 : 0 ≤ v) (hvM : v ≤ maximumValue alphabet k) :
    ∃ key, getKey alphabet k mult v = .ok key ∧
      getValue alphabet k mult key = .ok v := by
  have hb1 : 0 < alphabet.length := List.length_pos.2 hne
  have hMnn : (0 : Int) ≤ maximumValue alphabet k := by
    have := one_le_base_pow alphabet k hne
    rw [maximumValue]
    omega
  by_cases hv : v = 0
  · subst hv
    refine ⟨List.replicate k (alphabet.get ⟨0, hb1⟩), ?_, ?_⟩
    · rw [getKey, if_neg (by omega), if_neg (by omega), if_pos rfl]
      exact emptyKey_ok alphabet k hb1
    · simp only [getValue]
      rw [if_neg (by simp), emptyKey_ok alphabet k hb1]
      simp
  · have hv1 : 1 ≤ v := by omega
    have hM1 : (1 : Int) ≤ maximumValue alphabet k := le_trans hv1 hvM
    have hpow2 : (2 : Int) ≤ (alphabet.length : Int) ^ k := by
      rw [maximumValue] at hM1
      omega
    have hb2 : 2 ≤ alphabet.length := by
      by_contra hcon
      have hb1' : alphabet.length = 1 := by omega
      rw [hb1'] at hpow2
      simp at hpow2
    have hk1 : 1 ≤ k := by
      by_contra hcon
      have : k = 0 := by omega
      rw [this, pow_zero] at hpow2
      omega
    have hNval : maximumValue alphabet k + 1 = (alphabet.length : Int) ^ k := by
      rw [maximumValue]
      ring
    have hNpos : (0 : Int) < maximumValue alphabet k + 1 := by omega
    have hvm_nn : 0 ≤ v * mult := mul_nonneg (by omega) (by omega)
    have hraw_eq : (v * mult).tmod (maximumValue alphabet k + 1) =
        (v * mult) % (maximumValue alphabet k + 1) :=
      Int.tmod_eq_emod hvm_nn (by omega)
    set N := maximumValue alphabet k + 1 with hN
    have hraw_nn : 0 ≤ (v * mult) % N := Int.emod_nonneg _ (by omega)
    have hraw_lt : (v * mult) % N < N := Int.emod_lt_of_pos _ hNpos
    -- the scrambled value is nonzero because the multiplier is invertible
    have hraw1 : 1 ≤ (v * mult) % N := by
      rcases lt_or_eq_of_le hraw_nn with h | h
      · omega
      · exfalso
        have hdvd : N ∣ v * mult := Int.dvd_of_emod_eq_zero h.symm
        have hcop : IsCoprime N mult := by
          have h2 : Int.gcd N mult = 1 := by
            rw [Int.gcd_comm, hNval]
            exact hc
          exact Int.gcd_eq_one_iff_coprime.1 h2
        have hdvd2 : N ∣ v := hcop.dvd_of_dvd_mul_left (by rwa [mul_comm] at hdvd)
        have := Int.le_of_dvd (by omega) hdvd2
        omega
    have hrawNat : ((v * mult) % N).toNat < alphabet.length ^ k := by
      have hcast : ((alphabet.length ^ k : Nat) : Int) = (alphabet.length : Int) ^ k := by
        push_cast
        ring
      omega
    obtain ⟨ds, hok, hval, hmem, hlen⟩ := encode_ok alphabet hnd hb2 ((v * mult) % N) hraw_nn
    have hdslen : ds.length ≤ k := hlen k hk1 hrawNat
    have hz0 : alphabet.indexOf (alphabet.get ⟨0, hb1⟩) = 0 := indexOf_getElem alphabet hnd 0 hb1
    set z := alphabet.get ⟨0, hb1⟩ with hzdef
    set key := padStart ds k z with hkey
    have hkeylen : key.length = k := by
      rw [hkey, padStart, List.length_append, List.length_replicate]
      omega
    have hvalkey : valOf alphabet key = ((v * mult) % N).toNat := by
      rw [hkey, padStart, valOf_replicate_prepend alphabet z hz0, hval]
    have hvalempty : valOf alphabet (List.replicate k z) = 0 := by
      have h := valOf_replicate_prepend alphabet z hz0 k []
      rwa [List.append_nil] at h
    have hne_key : key ≠ List.replicate k z := by
      intro heq
      rw [heq, hvalempty] at hvalkey
      omega
    have hmemkey : ∀ c ∈ key, c ∈ alphabet := by
      intro c hck
      rw [hkey, padStart] at hck
      rcases List.mem_append.1 hck with h | h
      · rw [List.eq_of_mem_replicate h]
        exact List.getElem_mem hb1
      · exact hmem c h
    have hdec : decode key alphabet = .ok ((v * mult) % N) := by
      rw [decode_ok alphabet key hmemkey, hvalkey, Int.toNat_of_nonneg hraw_nn]
    obtain ⟨x, hx, hx0, hxlt, hinv⟩ := (modInv_cases mult N hNpos).2 (by
      rw [int_gcd_emod, hNval]
      exact hc)
    have hinv1 : (mult * x) % N = 1 := by
      rw [hinv, Int.emod_eq_of_lt (by norm_num) (by omega)]
    refine ⟨key, ?_, ?_⟩
    · simp only [getKey]
      rw [if_neg (by omega), if_neg (by omega), if_neg hv, ← hN, hraw_eq, hok,
        show ((0 : Int)) = ((0 : Nat) : Int) from rfl, charAt_nat alphabet 0 hb1]
    · simp only [getValue]
      rw [if_neg (by simp [hkeylen])]
      rw [emptyKey_ok alphabet k hb1]
      simp only [hdec, ← hN, hx, if_neg hne_key]
      have hres_nn : 0 ≤ ((v * mult) % N) * x := mul_nonneg hraw_nn hx0
      rw [Int.tmod_eq_emod hres_nn (by omega),
        mul_inv_roundtrip v mult x N hv0 (by omega) hinv1]

/-- Witness for C1 on the binary alphabet, `keyLength = 2`, multiplier 7
(coprime to `2^2 = 4`), value 2. -/
theorem obfuskey_roundtrip_witness :
    ∃ key, getKey ['0', '1'] 2 7 2 = .ok key ∧
      getValue ['0', '1'] 2 7 key = .ok 2 :=
  obfuskey_roundtrip ['0', '1'] 2 7 2 (by decide) (by decide) (by decide)
    (by decide) (by decide) (by decide)

/-! ## Lemmas: primality oracle -/

theorem trialDivisionLoop_spec (n limit : Nat) :
    ∀ (fuel i : Nat), limit + 1 ≤ i + fuel → i % 2 = 1 →
      (trialDivisionLoop n limit fuel i = true ↔
        ∀ j, i ≤ j → j ≤ limit → j % 2 = 1 → ¬ (j ∣ n)) := by
  intro fuel
  induction fuel with
  | zero =>
    intro i hfuel _
    constructor
    · intro _ j hij hjl _
      intro _
      omega
    · intro _
      rfl
  | succ fuel ih =>
    intro i hfuel hodd
    rw [trialDivisionLoop]
    by_cases hil : i ≤ limit
    · rw [if_pos hil]
      by_cases hdiv : n % i = 0
      · rw [if_pos hdiv]
        simp only [Bool.false_eq_true, false_iff]
        intro hall
        exact hall i le_rfl hil hodd (Nat.dvd_of_mod_eq_zero hdiv)
      · rw [if_neg hdiv, ih (i + 2) (by omega) (by omega)]
        constructor
        · intro h j hij hjl hjodd
          rcases Nat.lt_or_ge j (i + 2) with hj2 | hj2
          · have hcase : j = i ∨ j = i + 1 := by omega
            rcases hcase with h1 | h1
            · subst h1
              intro hdj
              exact hdiv (Nat.mod_eq_zero_of_dvd hdj)
            · subst h1
              intro _
              omega
          · exact h j hj2 hjl hjodd
        · intro h j hij hjl hjodd
          exact h j (by omega) hjl hjodd
    · rw [if_neg hil]
      constructor
      · intro _ j hij hjl _
        intro _
        omega
      · intro _
        rfl

/-- `trialDivision` decides primality exactly (for every non-negative input). -/
theorem trialDivision_correct (n : Nat) :
    trialDivision (n : Int) = .ok (decide (Nat.Prime n)) := by
  rw [trialDivision]
  by_cases h1 : (n : Int) ≤ 1
  · rw [if_pos h1]
    have : n = 0 ∨ n = 1 := by omega
    rcases this with h | h <;> subst h <;> simp [Nat.not_prime_zero, Nat.not_prime_one]
  · rw [if_neg h1]
    by_cases h23 : (n : Int) = 2 ∨ (n : Int) = 3
    · rw [if_pos h23]
      rcases h23 with h | h
      · have : n = 2 := by omega
        subst this
        simp [Nat.prime_two]
      · have : n = 3 := by omega
        subst this
        simp [Nat.prime_three]
    · rw [if_neg h23]
      have hn4 : 4 ≤ n := by omega
      by_cases heven : (n : Int) % 2 = 0
      · rw [if_pos heven]
        have h2n : 2 ∣ n := by
          have : ((n % 2 : Nat) : Int) = (n : Int) % 2 := by push_cast; ring
          exact Nat.dvd_of_mod_eq_zero (by omega)
        have : ¬ Nat.Prime n := by
          intro hp
          have := (Nat.Prime.eq_one_or_self_of_dvd hp 2 h2n)
          omega
        simp [this]
      · rw [if_neg heven]
        have hodd : n % 2 = 1 := by
          have : ((n % 2 : Nat) : Int) = (n : Int) % 2 := by push_cast; ring
          omega
        rw [isqrt_ok (n : Int) (by omega)]
        have htn : (n : Int).toNat = n := by omega
        rw [htn]
        simp only [ok_bind]
        have hsq : ((Nat.sqrt n : Nat) : Int).toNat = Nat.sqrt n := by omega
        rw [hsq]
        have hloop := trialDivisionLoop_spec n (Nat.sqrt n) (Nat.sqrt n + 1) 3
          (by omega) (by omega)
        by_cases hp : Nat.Prime n
        · have htrue : trialDivisionLoop n (Nat.sqrt n) (Nat.sqrt n + 1) 3 = true := by
            rw [hloop]
            intro j h3j hjs _ hdj
            have h2j : 2 ≤ j := by omega
            exact Nat.prime_def_le_sqrt.1 hp |>.2 j h2j hjs hdj
          rw [htrue]
          simp [hp]
        · have hfalse : trialDivisionLoop n (Nat.sqrt n) (Nat.sqrt n + 1) 3 = false := by
            rcases Bool.eq_false_or_eq_true
              (trialDivisionLoop n (Nat.sqrt n) (Nat.sqrt n + 1) 3) with h | h
            case inr => exact h
            · exfalso
              apply hp
              rw [Nat.prime_def_le_sqrt]
              refine ⟨by omega, ?_⟩
              intro m h2m hms hdm
              rcases Nat.even_or_odd m with hme | hmo
              · obtain ⟨t, ht⟩ := hme
                have h2m' : 2 ∣ m := ⟨t, by omega⟩
                have : 2 ∣ n := dvd_trans h2m' hdm
                have := Nat.mod_eq_zero_of_dvd this
                omega
              · have hm3 : 3 ≤ m := by
                  rcases Nat.lt_or_ge m 3 with h' | h'
                  · exfalso
                    have : m = 2 := by omega
                    subst this
                    simp [Nat.even_iff, Nat.odd_iff] at hmo
                  · exact h'
                have hmodd : m % 2 = 1 := Nat.odd_iff.1 hmo
                exact (hloop.1 h) m hm3 hms hmodd hdm
          rw [hfalse]
          simp [hp]

theorem prime_dvd_510510 {p : Nat} (hp : p.Prime) (hdvd : p ∣ 510510) :
    p = 2 ∨ p = 3 ∨ p = 5 ∨ p = 7 ∨ p = 11 ∨ p = 13 ∨ p = 17 := by
  rw [show (510510 : Nat) = 2 * (3 * (5 * (7 * (11 * (13 * 17))))) from by norm_num] at hdvd
  rcases (hp.dvd_mul).1 hdvd with h | h
  · exact Or.inl ((Nat.prime_dvd_prime_iff_eq hp (by norm_num)).1 h)
  rcases (hp.dvd_mul).1 h with h | h
  · exact Or.inr (Or.inl ((Nat.prime_dvd_prime_iff_eq hp (by norm_num)).1 h))
  rcases (hp.dvd_mul).1 h with h | h
  · exact Or.inr (Or.inr (Or.inl ((Nat.prime_dvd_prime_iff_eq hp (by norm_num)).1 h)))
  rcases (hp.dvd_mul).1 h with h | h
  · exact Or.inr (Or.inr (Or.inr (Or.inl
      ((Nat.prime_dvd_prime_iff_eq hp (by norm_num)).1 h))))
  rcases (hp.dvd_mul).1 h with h | h
  · exact Or.inr (Or.inr (Or.inr (Or.inr (Or.inl
      ((Nat.prime_dvd_prime_iff_eq hp (by norm_num)).1 h)))))
  rcases (hp.dvd_mul).1 h with h | h
  · exact Or.inr (Or.inr (Or.inr (Or.inr (Or.inr (Or.inl
      ((Nat.prime_dvd_prime_iff_eq hp (by norm_num)).1 h))))))
  · exact Or.inr (Or.inr (Or.inr (Or.inr (Or.inr (Or.inr
      ((Nat.prime_dvd_prime_iff_eq hp (by norm_num)).1 h))))))

theorem prime_dvd_30 {p : Nat} (hp : p.Prime) (hdvd : p ∣ 30) :
    p = 2 ∨ p = 3 ∨ p = 5 := by
  rw [show (30 : Nat) = 2 * (3 * 5) from by norm_num] at hdvd
  rcases (hp.dvd_mul).1 hdvd with h | h
  · exact Or.inl ((Nat.prime_dvd_prime_iff_eq hp (by norm_num)).1 h)
  rcases (hp.dvd_mul).1 h with h | h
  · exact Or.inr (Or.inl ((Nat.prime_dvd_prime_iff_eq hp (by norm_num)).1 h))
  · exact Or.inr (Or.inr ((Nat.prime_dvd_prime_iff_eq hp (by norm_num)).1 h))

/-- A number above 5 that shares a factor with 30 is composite. -/
theorem not_prime_of_gcd30 (k : Nat) (h5 : 5 < k) (h : 1 < Nat.gcd k 30) :
    ¬ k.Prime := by
  intro hkp
  obtain ⟨p, hp, hpd⟩ := Nat.exists_prime_and_dvd (show Nat.gcd k 30 ≠ 1 by omega)
  have hpk : p ∣ k := dvd_trans hpd (Nat.gcd_dvd_left k 30)
  have hp30 : p ∣ 30 := dvd_trans hpd (Nat.gcd_dvd_right k 30)
  have := prime_dvd_30 hp hp30
  have := (Nat.prime_dvd_prime_iff_eq hp hkp).1 hpk
  omega

theorem gcd_cast_nat (n m : Nat) : gcd (n : Int) (m : Int) = (Nat.gcd n m : Int) := by
  rw [gcd_eq_int_gcd]
  simp [Int.gcd]

/-- Under the wheel short-circuit's preconditions, primality is exactly
membership in {7, 11, 13, 17}. -/
theorem wheel_prime_iff (n : Nat) (h5 : 5 < n) (h2 : ¬ 2 ∣ n) (h3 : ¬ 3 ∣ n)
    (h5d : ¬ 5 ∣ n) (hg : 1 < Nat.gcd n 510510) :
    Nat.Prime n ↔ n = 7 ∨ n = 11 ∨ n = 13 ∨ n = 17 := by
  constructor
  · intro hp
    obtain ⟨p, hpp, hpd⟩ := Nat.exists_prime_and_dvd (show Nat.gcd n 510510 ≠ 1 by omega)
    have hpn : p ∣ n := dvd_trans hpd (Nat.gcd_dvd_left _ _)
    have hp510 : p ∣ 510510 := dvd_trans hpd (Nat.gcd_dvd_right _ _)
    have hps := prime_dvd_510510 hpp hp510
    have hpe := (Nat.prime_dvd_prime_iff_eq hpp hp).1 hpn
    rcases hps with h | h | h | h | h | h | h
    · exact absurd (h ▸ hpn) h2
    · exact absurd (h ▸ hpn) h3
    · exact absurd (h ▸ hpn) h5d
    all_goals omega
  · intro h
    rcases h with h | h | h | h <;> subst h <;> norm_num

/-- On every input below the 2,000,000 trial-division threshold, `isPrime`
decides primality exactly. -/
theorem isPrime_correct (n : Nat) (hn : n < 2000000) :
    isPrime (n : Int) = .ok (decide (Nat.Prime n)) := by
  rw [isPrime]
  by_cases h2 : (n : Int) < 2
  · rw [if_pos h2]
    have : n = 0 ∨ n = 1 := by omega
    rcases this with h | h <;> subst h <;> simp [Nat.not_prime_zero, Nat.not_prime_one]
  · rw [if_neg h2]
    by_cases h235 : (n : Int) = 2 ∨ (n : Int) = 3 ∨ (n : Int) = 5
    · rw [if_pos h235]
      rcases h235 with h | h | h
      · have : n = 2 := by omega
        subst this
        simp [Nat.prime_two]
      · have : n = 3 := by omega
        subst this
        simp [Nat.prime_three]
      · have : n = 5 := by omega
        subst this
        simp [show Nat.Prime 5 by norm_num]
    · rw [if_neg h235]
      have hmod2 : ((n % 2 : Nat) : Int) = (n : Int) % 2 := by push_cast; ring
      have hmod3 : ((n % 3 : Nat) : Int) = (n : Int) % 3 := by push_cast; ring
      have hmod5 : ((n % 5 : Nat) : Int) = (n : Int) % 5 := by push_cast; ring
      by_cases hdiv : (n : Int) % 2 = 0 ∨ (n : Int) % 3 = 0 ∨ (n : Int) % 5 = 0
      · rw [if_pos hdiv]
        have hnp : ¬ Nat.Prime n := by
          intro hp
          have hdvd : 2 ∣ n ∨ 3 ∣ n ∨ 5 ∣ n := by
            rcases hdiv with h | h | h
            · exact Or.inl (Nat.dvd_of_mod_eq_zero (by omega))
            · exact Or.inr (Or.inl (Nat.dvd_of_mod_eq_zero (by omega)))
            · exact Or.inr (Or.inr (Nat.dvd_of_mod_eq_zero (by omega)))
          rcases hdvd with h | h | h
          · have := hp.eq_one_or_self_of_dvd 2 h
            omega
          · have := hp.eq_one_or_self_of_dvd 3 h
            omega
          · have := hp.eq_one_or_self_of_dvd 5 h
            omega
        simp [hnp]
      · rw [if_neg hdiv]
        push_neg at hdiv
        have hn6 : 5 < n := by omega
        by_cases hgcd : gcd (n : Int) 510510 > 1
        · rw [if_pos hgcd]
          have hgcdN : 1 < Nat.gcd n 510510 := by
            have h := gcd_cast_nat n 510510
            push_cast at h
            rw [h] at hgcd
            omega
          have hd2 : ¬ 2 ∣ n := fun h => hdiv.1 (by
            have := Nat.mod_eq_zero_of_dvd h
            omega)
          have hd3 : ¬ 3 ∣ n := fun h => hdiv.2.1 (by
            have := Nat.mod_eq_zero_of_dvd h
            omega)
          have hd5 : ¬ 5 ∣ n := fun h => hdiv.2.2 (by
            have := Nat.mod_eq_zero_of_dvd h
            omega)
          have hiff := wheel_prime_iff n hn6 hd2 hd3 hd5 hgcdN
          by_cases hp : Nat.Prime n
          · have hmem := hiff.1 hp
            have : ([7, 11, 13, 17] : List Int).contains (n : Int) = true := by
              simp [List.contains]
              omega
            rw [this]
            simp [hp]
          · have hmem : ¬ (n = 7 ∨ n = 11 ∨ n = 13 ∨ n = 17) := fun h => hp (hiff.2 h)
            have : ([7, 11, 13, 17] : List Int).contains (n : Int) = false := by
              simp [List.contains]
              omega
            rw [this]
            simp [hp]
        · rw [if_neg hgcd, if_pos (show (n : Int) < 2000000 by omega)]
          exact trialDivision_correct n

/-- C5, counterexample: 561 = 3·187 is divisible by 3, so `isPrime(561)`
returns false at the divisible-by-3 check — the claim's precondition "not
divisible by 2, 3, or 5" fails at 561 and the wheel short-circuit is never
reached for it. -/
theorem isPrime_561_not_wheel :
    (561 : Int) % 3 = 0 ∧ isPrime 561 = .ok false :=
  ⟨by decide, rfl⟩

/-- C5 (amended): for every BigInt `n > 5` not divisible by 2, 3 or 5 with
`gcd(n, 510510) > 1`, `isPrime(n)` returns true exactly when
`n ∈ {7, 11, 13, 17}`; `isPrime(561)` returns false, but via the
divisible-by-3 check (561 = 3·187) that precedes the wheel short-circuit. -/
theorem isPrime_wheel_shortcircuit :
    (∀ n : Int, 5 < n → ¬((2 : Int) ∣ n) → ¬((3 : Int) ∣ n) → ¬((5 : Int) ∣ n) →
      1 < gcd n 510510 →
      (isPrime n = .ok true ↔ n = 7 ∨ n = 11 ∨ n = 13 ∨ n = 17)) ∧
    (561 : Int) % 3 = 0 ∧ isPrime 561 = .ok false := by
  refine ⟨?_, by decide, rfl⟩
  intro n h5 h2 h3 h5d hg
  have hm2 : (n : Int) % 2 ≠ 0 := fun h => h2 (Int.dvd_iff_emod_eq_zero.2 h)
  have hm3 : (n : Int) % 3 ≠ 0 := fun h => h3 (Int.dvd_iff_emod_eq_zero.2 h)
  have hm5 : (n : Int) % 5 ≠ 0 := fun h => h5d (Int.dvd_iff_emod_eq_zero.2 h)
  rw [isPrime, if_neg (by omega), if_neg (by omega),
    if_neg (by push_neg; exact ⟨hm2, hm3, hm5⟩), if_pos hg]
  constructor
  · intro h
    have : ([7, 11, 13, 17] : List Int).contains n = true := by
      exact Except.ok.inj h
    simpa [List.contains] using this
  · intro h
    have : ([7, 11, 13, 17] : List Int).contains n = true := by
      simp [List.contains]
      omega
    rw [this]

/-- Witness for C5's universal part at `n = 49` (which shares the factor 7
with 510510 and is not in {7, 11, 13, 17}, hence not prime by the
short-circuit). -/
theorem isPrime_wheel_shortcircuit_witness :
    (5 : Int) < 49 ∧ ¬((2 : Int) ∣ 49) ∧ ¬((3 : Int) ∣ 49) ∧ ¬((5 : Int) ∣ 49) ∧
      1 < gcd 49 510510 ∧
      (isPrime 49 = .ok true ↔ (49 : Int) = 7 ∨ (49 : Int) = 11 ∨
        (49 : Int) = 13 ∨ (49 : Int) = 17) :=
  ⟨by decide, by decide, by decide, by decide, by decide,
    isPrime_wheel_shortcircuit.1 49 (by decide) (by decide) (by decide) (by decide)
      (by decide)⟩

/-! ## Lemmas: next-prime search -/

/-- From a residue coprime to 30, the gap table hops over exactly the residues
sharing a factor with 30 and lands on a coprime one. -/
theorem wheel_gap_spec : ∀ r < 30, Nat.gcd r 30 = 1 →
    (∀ j < gapTable.getD r 0, 0 < j → 1 < Nat.gcd ((r + j) % 30) 30) ∧
    Nat.gcd ((r + gapTable.getD r 0) % 30) 30 = 1 := by decide

/-- Same hop property from an odd residue divisible by 3 or 5 (the initial
adjustment case of `getNextPrime`). -/
theorem wheel_gap_spec0 : ∀ r < 30, r % 2 = 1 → (r % 3 = 0 ∨ r % 5 = 0) →
    (∀ j < gapTable.getD r 0, 0 < j → 1 < Nat.gcd ((r + j) % 30) 30) ∧
    Nat.gcd ((r + gapTable.getD r 0) % 30) 30 = 1 := by decide

theorem gap_pos : ∀ r < 30, 1 ≤ gapTable.getD r 0 := by decide

theorem gap_le6 : ∀ r < 30, gapTable.getD r 0 ≤ 6 := by decide

/-- An odd residue not divisible by 3 or 5 is coprime to 30. -/
theorem coprime30_of_residue : ∀ r < 30, r % 2 = 1 → ¬(r % 3 = 0) → ¬(r % 5 = 0) →
    Nat.gcd r 30 = 1 := by decide

theorem gcd30_mod (k : Nat) : Nat.gcd k 30 = Nat.gcd (k % 30) 30 := by
  rw [Nat.gcd_comm k 30, Nat.gcd_rec]

theorem not_prime_of_small_factor (q d : Nat) (hd : d ∣ q) (h1 : 1 < d)
    (hq : d < q) : ¬ q.Prime := by
  intro hp
  have := hp.eq_one_or_self_of_dvd d hd
  omega

/-- The candidate loop of `getNextPrime` returns the least prime above `n`,
provided it starts at or below that prime, on a wheel-coprime candidate, with
everything in the exact trial-division range and enough fuel. -/
theorem getNextPrimeLoop_spec (n L : Nat) (hLp : L.Prime)
    (hLmin : ∀ q, n < q → q.Prime → L ≤ q) (hL2 : L < 2000000) :
    ∀ fuel c, n < c → c ≤ L → 6 ≤ c → Nat.gcd (c % 30) 30 = 1 →
      L - c < fuel → getNextPrimeLoop fuel c = .ok L := by
  intro fuel
  induction fuel with
  | zero => intro c _ _ _ _ h; omega
  | succ fuel ih =>
    intro c hnc hcL h6 hcop hfuel
    rw [getNextPrimeLoop]
    have hclt : c < 2000000 := by omega
    rw [isPrime_correct c hclt]
    simp only [ok_bind]
    by_cases hcp : c.Prime
    · rw [if_pos (by simp [hcp])]
      have hLc : L ≤ c := hLmin c hnc hcp
      have : c = L := by omega
      rw [this]
    · rw [if_neg (by simp [hcp])]
      have hr30 : c % 30 < 30 := Nat.mod_lt _ (by norm_num)
      obtain ⟨hskip, hcop'⟩ := wheel_gap_spec (c % 30) hr30 hcop
      have hgap1 : 1 ≤ gapTable.getD (c % 30) 0 := gap_pos (c % 30) hr30
      have hgap6 : gapTable.getD (c % 30) 0 ≤ 6 := gap_le6 (c % 30) hr30
      set g := gapTable.getD (c % 30) 0 with hg
      have hnotprime : ∀ q, c ≤ q → q < c + g → ¬ q.Prime := by
        intro q hq1 hq2
        rcases Nat.eq_or_lt_of_le hq1 with h | h
        · rw [← h]
          exact hcp
        · obtain ⟨j, hjq, hj0, hjg⟩ :
              ∃ j, q = c + j ∧ 0 < j ∧ j < g := ⟨q - c, by omega, by omega, by omega⟩
          have hjlt30 : j < 30 := by omega
          have hmod : (c + j) % 30 = (c % 30 + j) % 30 := by
            rw [Nat.add_mod c j 30, Nat.mod_eq_of_lt hjlt30]
          have hgcd1 : 1 < Nat.gcd ((c % 30 + j) % 30) 30 := hskip j hjg hj0
          have hgk : 1 < Nat.gcd (c + j) 30 := by
            rw [gcd30_mod (c + j), hmod]
            exact hgcd1
          subst hjq
          exact not_prime_of_gcd30 (c + j) (by omega) hgk
      have hc'L : c + g ≤ L := by
        by_contra hcon
        push_neg at hcon
        exact hnotprime L hcL hcon hLp
      have hcop'' : Nat.gcd ((c + g) % 30) 30 = 1 := by
        rw [Nat.add_mod c g 30, Nat.mod_eq_of_lt (show g < 30 by omega)]
        exact hcop'
      exact ih (c + g) (by omega) hc'L (by omega) hcop'' (by omega)

theorem even_not_prime (q : Nat) (hq2 : q % 2 = 0) (hq : 2 < q) : ¬ q.Prime :=
  not_prime_of_small_factor q 2 (Nat.dvd_of_mod_eq_zero hq2) (by omega) hq

/-- `getNextPrime` on a natural `5 ≤ m < 1000000` returns the least prime
strictly greater than `m`. -/
theorem getNextPrime_nat (m : Nat) (h5 : 5 ≤ m) (hm : m < 1000000) :
    ∃ p : Nat, getNextPrime (m : Int) = .ok (p : Int) ∧ m < p ∧ p.Prime ∧
      ∀ q : Nat, m < q → q.Prime → p ≤ q := by
  -- the least prime above m, which is at most 2m by Bertrand's postulate
  obtain ⟨Lb, hLbp, hmLb, hLb2m⟩ := Nat.exists_prime_lt_and_le_two_mul m (by omega)
  have hex : ∃ q, m < q ∧ q.Prime := ⟨Lb, hmLb, hLbp⟩
  obtain ⟨hmL, hLp⟩ := Nat.find_spec hex
  have hLmin : ∀ q, m < q → q.Prime → Nat.find hex ≤ q := fun q h1 h2 =>
    Nat.find_min' hex ⟨h1, h2⟩
  set L := Nat.find hex with hLdef
  have hLle : L ≤ Lb := hLmin Lb hmLb hLbp
  have hL2 : L < 2000000 := by omega
  refine ⟨L, ?_, hmL, hLp, hLmin⟩
  -- unfold getNextPrime down to the candidate loop
  rw [getNextPrime, getBitLengthI, if_neg (show ¬ (m : Int) < 0 by omega)]
  simp only [ok_bind]
  have htn : ((m : Int)).toNat = m := by omega
  rw [htn]
  have hbl : getBitLength m ≤ 20 := getBitLength_le m 20 (by norm_num; omega)
  rw [if_neg (by omega), if_neg (show ¬ (m : Int) < 2 by omega),
    if_neg (show ¬ (m : Int) < 5 by omega)]
  -- the first candidate after the parity bump
  have hc0odd : (m + 1 + m % 2) % 2 = 1 := by omega
  have hc07 : 7 ≤ m + 1 + m % 2 := by omega
  set c0 := m + 1 + m % 2 with hc0
  -- nothing strictly between m and c0 is prime (only an even number is skipped)
  have hskip0 : ∀ q, m < q → q < c0 → ¬ q.Prime := by
    intro q h1 h2
    have hq : q = m + 1 ∧ m % 2 = 1 := by omega
    exact even_not_prime q (by omega) (by omega)
  have hr2 : c0 % 30 % 2 = c0 % 2 := Nat.mod_mod_of_dvd c0 (by norm_num)
  have hr3 : c0 % 30 % 3 = c0 % 3 := Nat.mod_mod_of_dvd c0 (by norm_num)
  have hr5 : c0 % 30 % 5 = c0 % 5 := Nat.mod_mod_of_dvd c0 (by norm_num)
  have hr30 : c0 % 30 < 30 := Nat.mod_lt _ (by norm_num)
  by_cases hdiv : c0 % 3 = 0 ∨ c0 % 5 = 0
  · rw [if_pos hdiv]
    obtain ⟨hskip, hcop'⟩ := wheel_gap_spec0 (c0 % 30) hr30 (by omega) (by omega)
    have hgap1 : 1 ≤ gapTable.getD (c0 % 30) 0 := gap_pos (c0 % 30) hr30
    have hgap6 : gapTable.getD (c0 % 30) 0 ≤ 6 := gap_le6 (c0 % 30) hr30
    set g := gapTable.getD (c0 % 30) 0 with hg
    have hnotprime : ∀ q, m < q → q < c0 + g → ¬ q.Prime := by
      intro q h1 h2
      rcases Nat.lt_or_ge q c0 with h | h
      · exact hskip0 q h1 h
      rcases Nat.eq_or_lt_of_le h with h' | h'
      · rw [← h']
        rcases hdiv with hd | hd
        · exact not_prime_of_small_factor c0 3 (Nat.dvd_of_mod_eq_zero hd)
            (by omega) (by omega)
        · exact not_prime_of_small_factor c0 5 (Nat.dvd_of_mod_eq_zero hd)
            (by omega) (by omega)
      · obtain ⟨j, hjq, hj0, hjg⟩ :
            ∃ j, q = c0 + j ∧ 0 < j ∧ j < g := ⟨q - c0, by omega, by omega, by omega⟩
        have hmod : (c0 + j) % 30 = (c0 % 30 + j) % 30 := by
          rw [Nat.add_mod c0 j 30, Nat.mod_eq_of_lt (show j < 30 by omega)]
        have hgk : 1 < Nat.gcd (c0 + j) 30 := by
          rw [gcd30_mod (c0 + j), hmod]
          exact hskip j hjg hj0
        subst hjq
        exact not_prime_of_gcd30 (c0 + j) (by omega) hgk
    have hc1L : c0 + g ≤ L := by
      by_contra hcon
      push_neg at hcon
      exact hnotprime L hmL hcon hLp
    have hcop1 : Nat.gcd ((c0 + g) % 30) 30 = 1 := by
      rw [Nat.add_mod c0 g 30, Nat.mod_eq_of_lt (show g < 30 by omega)]
      exact hcop'
    rw [getNextPrimeLoop_spec m L hLp hLmin hL2 (2 * m + 4) (c0 + g)
      (by omega) hc1L (by omega) hcop1 (by omega)]
    rfl
  · rw [if_neg hdiv]
    push_neg at hdiv
    have hcop1 : Nat.gcd (c0 % 30) 30 = 1 :=
      coprime30_of_residue (c0 % 30) hr30 (by omega) (by omega) (by omega)
    have hc1L : c0 ≤ L := by
      by_contra hcon
      push_neg at hcon
      exact hskip0 L hmL hcon hLp
    rw [getNextPrimeLoop_spec m L hLp hLmin hL2 (2 * m + 4) c0
      (by omega) hc1L (by omega) hcop1 (by omega)]
    rfl

/-- C6, counterexample: 5 is prime, so the smallest prime ≥ 5 is 5 itself,
but `getNextPrime(5)` returns 7 — the search is strictly-greater for every
`n ≥ 2` (the repository's own tests assert exactly this behaviour). -/
theorem getNextPrime_five_counterexample :
    Nat.Prime 5 ∧ getNextPrime 5 = .ok 7 ∧ (7 : Int) ≠ 5 :=
  ⟨by norm_num, rfl, by decide⟩

/-- C6 (amended): for `0 ≤ n < 2`, `getNextPrime(n)` returns 2; for every
`2 ≤ n < 1,000,000` (where the least prime above `n` is decided by exact
trial division), it returns the smallest prime **strictly greater** than `n`;
in particular `getNextPrime(9) = 11` and `getNextPrime(0) = 2`. -/
theorem getNextPrime_strictly_greater :
    (∀ n : Int, 0 ≤ n → n < 2 → getNextPrime n = .ok 2) ∧
    (∀ n : Int, 2 ≤ n → n < 1000000 →
      ∃ p : Nat, getNextPrime n = .ok (p : Int) ∧ n < (p : Int) ∧ Nat.Prime p ∧
        ∀ q : Nat, n < (q : Int) → q.Prime → p ≤ q) ∧
    getNextPrime 9 = .ok 11 ∧ getNextPrime 0 = .ok 2 := by
  refine ⟨?_, ?_, rfl, rfl⟩
  · intro n h0 h2
    have : n = 0 ∨ n = 1 := by omega
    rcases this with h | h <;> subst h <;> rfl
  · intro n h2 hn
    have hn0 : (0 : Int) ≤ n := by omega
    have hmn : ((n.toNat : Nat) : Int) = n := Int.toNat_of_nonneg hn0
    rcases Nat.lt_or_ge n.toNat 5 with hsmall | hlarge
    · have hcase : n.toNat = 2 ∨ n.toNat = 3 ∨ n.toNat = 4 := by omega
      rcases hcase with h | h | h
      · refine ⟨3, ?_, by omega, by norm_num, fun q hq _ => by omega⟩
        rw [← hmn, h]
        rfl
      · refine ⟨5, ?_, by omega, by norm_num, fun q hq hqp => ?_⟩
        · rw [← hmn, h]
          rfl
        · by_contra hc
          have : q = 4 := by omega
          subst this
          exact absurd hqp (by norm_num)
      · refine ⟨5, ?_, by omega, by norm_num, fun q hq _ => by omega⟩
        rw [← hmn, h]
        rfl
    · obtain ⟨p, hp, hmp, hpp, hpmin⟩ :=
        getNextPrime_nat n.toNat hlarge (by omega)
      rw [hmn] at hp
      exact ⟨p, hp, by omega, hpp, fun q hq hqp => hpmin q (by omega) hqp⟩

/-- Witness for C6's strictly-greater part at `n = 9` (result 11). -/
theorem getNextPrime_strictly_greater_witness :
    ∃ p : Nat, getNextPrime 9 = .ok (p : Int) ∧ (9 : Int) < (p : Int) ∧ Nat.Prime p ∧
      ∀ q : Nat, (9 : Int) < (q : Int) → q.Prime → p ≤ q :=
  getNextPrime_strictly_greater.2.1 9 (by norm_num) (by norm_num)

/-! ## Lemmas: bit packing -/

/-- ORing a value shifted wholly above an accumulator adds it. -/
theorem lor_shift_add : ∀ (s : Nat), ∀ (a b : Nat), a < 2 ^ s →
    a ||| (b <<< s) = a + (b <<< s) := by
  intro s
  induction s with
  | zero =>
    intro a b ha
    have : a = 0 := by omega
    subst this
    simp
  | succ s ih =>
    intro a b ha
    have hb : b <<< (s + 1) = Nat.bit false (b <<< s) := by
      rw [Nat.bit_val]
      simp only [Bool.toNat_false, Nat.add_zero]
      rw [Nat.shiftLeft_eq, Nat.shiftLeft_eq, pow_succ]
      ring
    have hadec : a = Nat.bit a.bodd a.div2 := (Nat.bit_decomp a).symm
    have hq : a.div2 < 2 ^ s := by
      rw [Nat.div2_val]
      have h2 : 2 ^ (s + 1) = 2 ^ s * 2 := by rw [pow_succ]
      omega
    calc a ||| (b <<< (s + 1)) = Nat.bit a.bodd a.div2 ||| Nat.bit false (b <<< s) := by
          rw [← hadec, ← hb]
      _ = Nat.bit (a.bodd || false) (a.div2 ||| (b <<< s)) := Nat.lor_bit _ _ _ _
      _ = Nat.bit a.bodd (a.div2 + (b <<< s)) := by rw [Bool.or_false, ih _ b hq]
      _ = a + (b <<< (s + 1)) := by
          rw [hb]
          simp only [Nat.bit_val, Bool.toNat_false, Bool.toNat_true]
          have hd := Nat.bit_decomp a
          rw [Nat.bit_val] at hd
          omega

theorem totalBits_foldl (l : SchemaDefinition) :
    ∀ a : Nat, l.foldl (fun sum f => sum + f.bits) a = a + totalBits l := by
  induction l with
  | nil => intro a; simp [totalBits]
  | cons f rest ih =>
    intro a
    rw [totalBits, List.foldl_cons, List.foldl_cons, ih, ih]
    omega

theorem totalBits_cons (f : FieldSchema) (l : SchemaDefinition) :
    totalBits (f :: l) = f.bits + totalBits l := by
  rw [totalBits, List.foldl_cons, totalBits_foldl]
  omega

theorem totalBits_append (xs ys : SchemaDefinition) :
    totalBits (xs ++ ys) = totalBits xs + totalBits ys := by
  induction xs with
  | nil => simp [totalBits]
  | cons f rest ih =>
    rw [List.cons_append, totalBits_cons, totalBits_cons, ih]
    omega

theorem totalBits_reverse (l : SchemaDefinition) :
    totalBits l.reverse = totalBits l := by
  induction l with
  | nil => rfl
  | cons f rest ih =>
    rw [List.reverse_cons, totalBits_append, ih, totalBits_cons, totalBits_cons]
    have h0 : totalBits ([] : SchemaDefinition) = 0 := rfl
    rw [h0]
    omega

theorem lookup_cons {β : Type} (k : String) (p : String × β) (rest : List (String × β)) :
    (p :: rest).lookup k = if k == p.1 then some p.2 else rest.lookup k := by
  rcases p with ⟨a, b⟩
  by_cases h : (k == a) = true
  · simp [List.lookup, h]
  · simp [List.lookup, h]

theorem lookup_eq_none_of_not_mem {β : Type} :
    ∀ (l : List (String × β)) (k : String), k ∉ l.map Prod.fst → l.lookup k = none := by
  intro l
  induction l with
  | nil => intro k _; rfl
  | cons p rest ih =>
    intro k hk
    simp only [List.map_cons, List.mem_cons] at hk
    push_neg at hk
    rw [lookup_cons]
    rw [if_neg (by simpa using hk.1), ih k hk.2]

theorem lookup_append_of_none {β : Type} :
    ∀ (l1 l2 : List (String × β)) (k : String), l1.lookup k = none →
      (l1 ++ l2).lookup k = l2.lookup k := by
  intro l1
  induction l1 with
  | nil => intro l2 k _; rfl
  | cons p rest ih =>
    intro l2 k h
    rw [lookup_cons] at h
    by_cases hk : k == p.1
    · rw [if_pos hk] at h
      cases h
    · rw [if_neg hk] at h
      rw [List.cons_append, lookup_cons, if_neg hk, ih l2 k h]

theorem lookup_of_mem_nodup {β : Type} :
    ∀ (l : List (String × β)) (k : String) (v : β), (l.map Prod.fst).Nodup →
      (k, v) ∈ l → l.lookup k = some v := by
  intro l
  induction l with
  | nil => intro k v _ h; cases h
  | cons p rest ih =>
    intro k v hnd hmem
    simp only [List.map_cons, List.nodup_cons] at hnd
    rw [lookup_cons]
    rcases List.mem_cons.1 hmem with h | h
    · rw [← h]
      simp
    · have hne : k ≠ p.1 := by
        intro he
        exact hnd.1 (he ▸ (List.mem_map.2 ⟨(k, v), h, rfl⟩))
      rw [if_neg (by simpa using hne), ih k v hnd.2 h]

theorem lookup_isSome_of_mem_keys {β : Type} :
    ∀ (l : List (String × β)) (k : String), k ∈ l.map Prod.fst →
      ∃ v, l.lookup k = some v := by
  intro l
  induction l with
  | nil => intro k h; cases h
  | cons p rest ih =>
    intro k hk
    rw [lookup_cons]
    by_cases he : k == p.1
    · exact ⟨p.2, by rw [if_pos he]⟩
    · simp only [List.map_cons, List.mem_cons] at hk
      rcases hk with h | h
      · exact absurd h (by simpa using he)
      · obtain ⟨v, hv⟩ := ih k h
        exact ⟨v, by rw [if_neg he, hv]⟩

theorem calcAux_keys : ∀ (l : SchemaDefinition) (s : Nat),
    (calculateFieldInfoAux l s).map Prod.fst = l.map FieldSchema.name := by
  intro l
  induction l with
  | nil => intro s; rfl
  | cons f rest ih =>
    intro s
    rw [calculateFieldInfoAux, List.map_cons, List.map_cons, ih]

theorem calcAux_append : ∀ (xs ys : SchemaDefinition) (s : Nat),
    calculateFieldInfoAux (xs ++ ys) s =
      calculateFieldInfoAux xs s ++ calculateFieldInfoAux ys (s + totalBits xs) := by
  intro xs
  induction xs with
  | nil => intro ys s; simp [calculateFieldInfoAux, totalBits]
  | cons f rest ih =>
    intro ys s
    rw [List.cons_append, calculateFieldInfoAux, calculateFieldInfoAux, ih,
      List.cons_append, totalBits_cons]
    have : s + f.bits + totalBits rest = s + (f.bits + totalBits rest) := by omega
    rw [this]

/-- In a duplicate-free schema, the stored field info of a field is its bit
width paired with the total width of the fields listed after it. -/
theorem calc_lookup (pre post : SchemaDefinition) (f : FieldSchema)
    (hnd : ((pre ++ f :: post).map FieldSchema.name).Nodup) :
    (calculateFieldInfo (pre ++ f :: post)).lookup f.name =
      some ⟨f.bits, totalBits post⟩ := by
  rw [calculateFieldInfo]
  have hrev : (pre ++ f :: post).reverse = post.reverse ++ (f :: pre.reverse) := by
    rw [List.reverse_append, List.reverse_cons]
    simp
  rw [hrev, calcAux_append]
  have hnotpost : f.name ∉ post.reverse.map FieldSchema.name := by
    intro hmem
    rw [List.map_reverse] at hmem
    have hmem' : f.name ∈ post.map FieldSchema.name := List.mem_reverse.1 hmem
    rw [List.map_append, List.map_cons] at hnd
    have := (List.nodup_append.1 hnd).2.1
    rw [List.nodup_cons] at this
    exact this.1 hmem'
  have hnone : (calculateFieldInfoAux post.reverse 0).lookup f.name = none :=
    lookup_eq_none_of_not_mem _ _ (by rw [calcAux_keys]; exact hnotpost)
  rw [lookup_append_of_none _ _ _ hnone, calculateFieldInfoAux, lookup_cons]
  rw [if_pos (by simp), totalBits_reverse]
  simp

/-! ## Lemmas: unpack -/

/-- The value `unpack` extracts for each field, written positionally: the
field's shift is the total bit width of the fields listed after it. -/
def unpackSpec : SchemaDefinition → Nat → List (String × Nat)
  | [], _ => []
  | f :: rest, n =>
    (f.name, (n >>> totalBits rest) &&& ((1 <<< f.bits) - 1)) :: unpackSpec rest n

theorem getFieldInfo_ok (pre post : SchemaDefinition) (f : FieldSchema)
    (hnd : ((pre ++ f :: post).map FieldSchema.name).Nodup) :
    getFieldInfo (pre ++ f :: post) f.name = .ok ⟨f.bits, totalBits post⟩ := by
  have hmem : f.name ∈ (pre ++ f :: post).map FieldSchema.name :=
    List.mem_map.2 ⟨f, by simp, rfl⟩
  simp only [getFieldInfo]
  rw [if_pos (List.elem_eq_true_of_mem hmem), calc_lookup pre post f hnd]

theorem unpackLoop_ok (schema : SchemaDefinition) (n : Nat)
    (hnd : (schema.map FieldSchema.name).Nodup) :
    ∀ (sub pre : SchemaDefinition), schema = pre ++ sub →
      unpackLoop schema n sub = .ok (unpackSpec sub n) := by
  intro sub
  induction sub with
  | nil => intro pre h; rfl
  | cons f rest ih =>
    intro pre h
    have hg : getFieldInfo schema f.name = .ok ⟨f.bits, totalBits rest⟩ := by
      rw [h]
      exact getFieldInfo_ok pre rest f (h ▸ hnd)
    have ht : unpackLoop schema n rest = .ok (unpackSpec rest n) :=
      ih (pre ++ [f]) (by rw [h, List.append_assoc]; rfl)
    rw [unpackLoop, unpackSpec]
    simp only [hg, ht]

/-- `unpack` never fails on a duplicate-free schema and computes the
positional extraction, whatever the packed integer. -/
theorem unpack_ok (schema : SchemaDefinition) (n : Nat)
    (hnd : (schema.map FieldSchema.name).Nodup) :
    unpack schema n false = .ok (unpackSpec schema n) := by
  rw [unpack]
  simp only [Bool.false_eq_true, if_false]
  exact unpackLoop_ok schema n hnd schema [] rfl

theorem extract_eq (n s b : Nat) :
    (n >>> s) &&& ((1 <<< b) - 1) = n / 2 ^ s % 2 ^ b := by
  rw [Nat.shiftRight_eq_div_pow, Nat.shiftLeft_eq, one_mul, Nat.and_pow_two_sub_one_eq_mod]

theorem extract_mod (n s b t : Nat) (h : s + b ≤ t) :
    (n % 2 ^ t) / 2 ^ s % 2 ^ b = n / 2 ^ s % 2 ^ b := by
  have ht : 2 ^ t = 2 ^ s * 2 ^ (t - s) := by rw [← pow_add]; congr 1; omega
  rw [ht, Nat.mod_mul_right_div_self, Nat.mod_mod_of_dvd]
  exact pow_dvd_pow 2 (by omega)

/-- Bits of the packed integer above `totalBits` never reach any field: the
extraction only sees `n % 2 ^ totalBits`. -/
theorem unpackSpec_mod : ∀ (sub : SchemaDefinition) (n t : Nat), totalBits sub ≤ t →
    unpackSpec sub (n % 2 ^ t) = unpackSpec sub n := by
  intro sub
  induction sub with
  | nil => intro n t _; rfl
  | cons f rest ih =>
    intro n t ht
    rw [totalBits_cons] at ht
    rw [unpackSpec, unpackSpec, ih n t (by omega)]
    congr 1
    rw [extract_eq, extract_eq, extract_mod]
    omega

/-- The example schema of the spec: `[{id,10},{type,2},{flag,1}]`. -/
def exampleSchema : SchemaDefinition := [⟨"id", 10⟩, ⟨"type", 2⟩, ⟨"flag", 1⟩]

/-- C10: `Obfusbit.unpack(n, false)` performs no upper-range check on the
packed integer: for every non-negative BigInt `n` — no hypothesis bounds `n`,
so this covers every `n` strictly greater than the schema's `maximumValue` —
it returns without error the record mapping each field to
`(n >> shift) & (2^bits - 1)`, and any bits of `n` above `totalBits` are
silently discarded: the result equals that of unpacking `n % 2^totalBits`. -/
theorem unpack_no_range_check (schema : SchemaDefinition) (n : Nat)
    (hnd : (schema.map FieldSchema.name).Nodup) :
    unpack schema n false = .ok (unpackSpec schema n) ∧
    unpack schema n false = unpack schema (n % 2 ^ totalBits schema) false := by
  refine ⟨unpack_ok schema n hnd, ?_⟩
  rw [unpack_ok schema n hnd, unpack_ok schema (n % 2 ^ totalBits schema) hnd,
    unpackSpec_mod schema n (totalBits schema) le_rfl]

/-- Witness: for the 13-bit example schema, `unpack` accepts 10000 (which
exceeds `maximumValue = 8191`) and extracts the masked fields. -/
theorem unpack_no_range_check_witness :
    (exampleSchema.map FieldSchema.name).Nodup ∧
    schemaMaximumValue exampleSchema < 10000 ∧
    unpack exampleSchema 10000 false = .ok [("id", 226), ("type", 0), ("flag", 0)] := by
  refine ⟨by decide, by decide, ?_⟩
  rw [(unpack_no_range_check exampleSchema 10000 (by decide)).1]
  rfl

/-! ## Lemmas: pack -/

theorem lookup_mem {β : Type} :
    ∀ (l : List (String × β)) (k : String) (v : β), l.lookup k = some v → (k, v) ∈ l := by
  intro l
  induction l with
  | nil => intro k v h; cases h
  | cons p rest ih =>
    intro k v h
    rw [lookup_cons] at h
    by_cases hk : (k == p.1) = true
    · rw [if_pos hk] at h
      injection h with h
      have hks : k = p.1 := by simpa using hk
      exact List.mem_cons.2 (Or.inl (by rw [hks, ← h]))
    · rw [if_neg hk] at h
      exact List.mem_cons.2 (Or.inr (ih k v h))

/-- The packed integer accumulated from the least-significant (last-listed)
field: the traversal order of `packLoop` over `calculateFieldInfo`. -/
def packRev (values : List (String × Int)) : SchemaDefinition → Nat
  | [] => 0
  | f :: rest =>
    ((values.lookup f.name).getD 0).toNat + 2 ^ f.bits * packRev values rest

/-- The packed integer written positionally in schema order: each field value
times two to its shift (the total width of the fields after it). -/
def packVal (values : List (String × Int)) : SchemaDefinition → Nat
  | [] => 0
  | f :: rest =>
    ((values.lookup f.name).getD 0).toNat * 2 ^ totalBits rest + packVal values rest

theorem bounds_of_pairwise (schema : SchemaDefinition) (values : List (String × Int))
    (hb : ∀ p ∈ values, ∀ f ∈ schema, p.1 = f.name → 0 ≤ p.2 ∧ p.2 < 2 ^ f.bits) :
    ∀ f ∈ schema, ∀ v, values.lookup f.name = some v → 0 ≤ v ∧ v < 2 ^ f.bits := by
  intro f hf v hv
  exact hb (f.name, v) (lookup_mem values f.name v hv) f hf rfl

theorem packVal_lt (values : List (String × Int)) :
    ∀ (l : SchemaDefinition),
      (∀ f ∈ l, ∀ v, values.lookup f.name = some v → 0 ≤ v ∧ v < 2 ^ f.bits) →
      packVal values l < 2 ^ totalBits l := by
  intro l
  induction l with
  | nil =>
    intro _
    rw [packVal]
    positivity
  | cons f rest ih =>
    intro hb
    have h1 : ((values.lookup f.name).getD 0).toNat < 2 ^ f.bits := by
      cases hv : values.lookup f.name with
      | none =>
        simp only [Option.getD_none, Int.toNat_zero]
        positivity
      | some v =>
        have hvb := hb f (List.mem_cons_self f rest) v hv
        have h2 : v < ((2 ^ f.bits : Nat) : Int) := by exact_mod_cast hvb.2
        simp only [Option.getD_some]
        omega
    have h2 := ih (fun g hg => hb g (List.mem_cons_of_mem f hg))
    rw [packVal, totalBits_cons, Nat.add_comm f.bits (totalBits rest), pow_add]
    have h3 : ((values.lookup f.name).getD 0).toNat * 2 ^ totalBits rest ≤
        (2 ^ f.bits - 1) * 2 ^ totalBits rest :=
      Nat.mul_le_mul_right _ (by omega)
    have h4 : (2 ^ f.bits - 1) * 2 ^ totalBits rest =
        2 ^ f.bits * 2 ^ totalBits rest - 2 ^ totalBits rest := by
      rw [Nat.sub_one_mul]
    have h5 : 2 ^ totalBits rest ≤ 2 ^ f.bits * 2 ^ totalBits rest :=
      Nat.le_mul_of_pos_left _ (by positivity)
    have h6 : 2 ^ totalBits rest * 2 ^ f.bits = 2 ^ f.bits * 2 ^ totalBits rest :=
      Nat.mul_comm _ _
    omega

theorem add_mul_lt_mul (a t A B : Nat) (ha : a < A) (ht : t < B) : a + t * A < A * B := by
  have h1 : t * A ≤ (B - 1) * A := Nat.mul_le_mul_right A (by omega)
  have h2 : (B - 1) * A = B * A - A := by rw [Nat.sub_one_mul]
  have h3 : A ≤ B * A := Nat.le_mul_of_pos_left A (by omega)
  have h4 : A * B = B * A := Nat.mul_comm A B
  omega

theorem packLoop_calcAux (values : List (String × Int)) :
    ∀ (l : SchemaDefinition), ∀ (s acc : Nat),
      (∀ f ∈ l, ∃ v, values.lookup f.name = some v) →
      (∀ f ∈ l, ∀ v, values.lookup f.name = some v → 0 ≤ v ∧ v < 2 ^ f.bits) →
      acc < 2 ^ s →
      packLoop values (calculateFieldInfoAux l s) acc =
          .ok (acc + 2 ^ s * packRev values l) ∧
        acc + 2 ^ s * packRev values l < 2 ^ (s + totalBits l) := by
  intro l
  induction l with
  | nil =>
    intro s acc _ _ hacc
    rw [calculateFieldInfoAux, packLoop, packRev]
    have h0 : totalBits ([] : SchemaDefinition) = 0 := rfl
    rw [h0, Nat.mul_zero, Nat.add_zero, Nat.add_zero]
    exact ⟨rfl, hacc⟩
  | cons f rest ih =>
    intro s acc hex hb hacc
    obtain ⟨v, hv⟩ := hex f (List.mem_cons_self f rest)
    have hvb := hb f (List.mem_cons_self f rest) v hv
    have hvn : v.toNat < 2 ^ f.bits := by
      have h2 : v < ((2 ^ f.bits : Nat) : Int) := by exact_mod_cast hvb.2
      omega
    have hlor : acc ||| (v.toNat <<< s) = acc + v.toNat * 2 ^ s := by
      rw [lor_shift_add s acc v.toNat hacc, Nat.shiftLeft_eq]
    have hacc' : acc + v.toNat * 2 ^ s < 2 ^ (s + f.bits) := by
      rw [pow_add]
      exact add_mul_lt_mul acc v.toNat (2 ^ s) (2 ^ f.bits) hacc hvn
    obtain ⟨hrec, hlt⟩ := ih (s + f.bits) (acc + v.toNat * 2 ^ s)
      (fun g hg => hex g (List.mem_cons_of_mem f hg))
      (fun g hg => hb g (List.mem_cons_of_mem f hg)) hacc'
    have hstep : packLoop values (calculateFieldInfoAux (f :: rest) s) acc =
        packLoop values (calculateFieldInfoAux rest (s + f.bits))
          (acc + v.toNat * 2 ^ s) := by
      rw [calculateFieldInfoAux, packLoop]
      simp only [hv]
      rw [hlor]
    have hval : acc + 2 ^ s * packRev values (f :: rest) =
        acc + v.toNat * 2 ^ s + 2 ^ (s + f.bits) * packRev values rest := by
      rw [packRev, hv, Option.getD_some, pow_add]
      ring
    constructor
    · rw [hstep, hrec, hval]
    · rw [hval, totalBits_cons]
      have h7 : s + (f.bits + totalBits rest) = s + f.bits + totalBits rest := by omega
      rw [h7]
      exact hlt

theorem packRev_append (values : List (String × Int)) :
    ∀ (xs ys : SchemaDefinition),
      packRev values (xs ++ ys) =
        packRev values xs + 2 ^ totalBits xs * packRev values ys := by
  intro xs
  induction xs with
  | nil =>
    intro ys
    have h0 : totalBits ([] : SchemaDefinition) = 0 := rfl
    rw [List.nil_append, packRev, h0, pow_zero, Nat.zero_add, Nat.one_mul]
  | cons f rest ih =>
    intro ys
    rw [List.cons_append, packRev, packRev, ih, totalBits_cons, pow_add]
    ring

theorem packRev_reverse (values : List (String × Int)) :
    ∀ (l : SchemaDefinition), packRev values l.reverse = packVal values l := by
  intro l
  induction l with
  | nil => rfl
  | cons f rest ih =>
    have h1 : packRev values [f] = ((values.lookup f.name).getD 0).toNat := by
      rw [packRev, packRev, Nat.mul_zero, Nat.add_zero]
    rw [List.reverse_cons, packRev_append, ih, totalBits_reverse, h1, packVal]
    ring

theorem unpackSpec_packVal (values : List (String × Int)) :
    ∀ (l : SchemaDefinition),
      (∀ f ∈ l, ∀ v, values.lookup f.name = some v → 0 ≤ v ∧ v < 2 ^ f.bits) →
      unpackSpec l (packVal values l) =
        l.map (fun f => (f.name, ((values.lookup f.name).getD 0).toNat)) := by
  intro l
  induction l with
  | nil => intro _; rfl
  | cons f rest ih =>
    intro hb
    have hrestlt : packVal values rest < 2 ^ totalBits rest :=
      packVal_lt values rest (fun g hg => hb g (List.mem_cons_of_mem f hg))
    have hvlt : ((values.lookup f.name).getD 0).toNat < 2 ^ f.bits := by
      cases hv : values.lookup f.name with
      | none =>
        simp only [Option.getD_none, Int.toNat_zero]
        positivity
      | some v =>
        have hvb := hb f (List.mem_cons_self f rest) v hv
        have h2 : v < ((2 ^ f.bits : Nat) : Int) := by exact_mod_cast hvb.2
        simp only [Option.getD_some]
        omega
    have hn : packVal values (f :: rest) =
        2 ^ totalBits rest * ((values.lookup f.name).getD 0).toNat +
          packVal values rest := by
      rw [packVal]
      ring
    have hhead : packVal values (f :: rest) / 2 ^ totalBits rest % 2 ^ f.bits =
        ((values.lookup f.name).getD 0).toNat := by
      rw [hn, Nat.mul_add_div (by positivity), Nat.div_eq_of_lt hrestlt,
        Nat.add_zero, Nat.mod_eq_of_lt hvlt]
    have htail : unpackSpec rest (packVal values (f :: rest)) =
        unpackSpec rest (packVal values rest) := by
      have hm : packVal values (f :: rest) % 2 ^ totalBits rest =
          packVal values rest := by
        rw [hn, Nat.mul_add_mod, Nat.mod_eq_of_lt hrestlt]
      rw [← hm]
      exact (unpackSpec_mod rest (packVal values (f :: rest)) (totalBits rest) le_rfl).symm
    rw [unpackSpec, extract_eq, hhead, htail,
      ih (fun g hg => hb g (List.mem_cons_of_mem f hg)), List.map_cons]

theorem checkFieldRanges_ok (schema : SchemaDefinition)
    (hnd : (schema.map FieldSchema.name).Nodup) :
    ∀ (l : List (String × Int)),
      (∀ p ∈ l, ∃ f ∈ schema, p.1 = f.name ∧ 0 ≤ p.2 ∧ p.2 < 2 ^ f.bits) →
      checkFieldRanges schema l = .ok () := by
  intro l
  induction l with
  | nil => intro _; rfl
  | cons p rest ih =>
    obtain ⟨name, value⟩ := p
    intro hb
    obtain ⟨f, hf, hname, hlo, hhi⟩ := hb (name, value) (List.mem_cons_self _ rest)
    obtain ⟨pre, post, hdecomp⟩ := List.append_of_mem hf
    have hname2 : name = f.name := hname
    have hlook : (calculateFieldInfo schema).lookup name =
        some ⟨f.bits, totalBits post⟩ := by
      rw [hname2, hdecomp]
      exact calc_lookup pre post f (hdecomp ▸ hnd)
    have hcast : ((1 <<< f.bits : Nat) : Int) = ((2 ^ f.bits : Nat) : Int) := by
      rw [Nat.shiftLeft_eq, Nat.one_mul]
    have hhi' : value < ((1 <<< f.bits : Nat) : Int) := by
      rw [hcast]
      exact_mod_cast hhi
    rw [checkFieldRanges]
    simp only [hlook]
    rw [if_neg (by push_neg; exact ⟨hlo, hhi'⟩)]
    exact ih (fun q hq => hb q (List.mem_cons_of_mem _ hq))

theorem validateFields_ok (schema : SchemaDefinition) (values : List (String × Int))
    (hnd : (schema.map FieldSchema.name).Nodup)
    (hperm : (values.map Prod.fst).Perm (schema.map FieldSchema.name))
    (hb : ∀ p ∈ values, ∀ f ∈ schema, p.1 = f.name → 0 ≤ p.2 ∧ p.2 < 2 ^ f.bits) :
    validateFields schema values = .ok () := by
  have hmiss : (schema.map FieldSchema.name).filter
      (fun f => !((values.map Prod.fst).contains f)) = [] := by
    rw [List.filter_eq_nil_iff]
    intro a ha
    have hmem : a ∈ values.map Prod.fst := hperm.mem_iff.2 ha
    have hc : (values.map Prod.fst).contains a = true := List.elem_eq_true_of_mem hmem
    rw [hc]
    decide
  have hextra : (values.map Prod.fst).filter
      (fun f => !((schema.map FieldSchema.name).contains f)) = [] := by
    rw [List.filter_eq_nil_iff]
    intro a ha
    have hmem : a ∈ schema.map FieldSchema.name := hperm.mem_iff.1 ha
    have hc : (schema.map FieldSchema.name).contains a = true :=
      List.elem_eq_true_of_mem hmem
    rw [hc]
    decide
  have hranges : checkFieldRanges schema values = .ok () := by
    refine checkFieldRanges_ok schema hnd values (fun p hp => ?_)
    have hmem : p.1 ∈ schema.map FieldSchema.name :=
      hperm.mem_iff.1 (List.mem_map.2 ⟨p, hp, rfl⟩)
    obtain ⟨f, hf, hfname⟩ := List.mem_map.1 hmem
    exact ⟨f, hf, hfname.symm, hb p hp f hf hfname.symm⟩
  simp only [validateFields, hmiss, hextra]
  rw [if_neg (fun hcon => hcon rfl), if_neg (fun hcon => hcon rfl)]
  exact hranges

theorem pack_ok (schema : SchemaDefinition) (values : List (String × Int))
    (hnd : (schema.map FieldSchema.name).Nodup)
    (hperm : (values.map Prod.fst).Perm (schema.map FieldSchema.name))
    (hb : ∀ p ∈ values, ∀ f ∈ schema, p.1 = f.name → 0 ≤ p.2 ∧ p.2 < 2 ^ f.bits) :
    pack schema values false = .ok (packVal values schema) := by
  have hlb := bounds_of_pairwise schema values hb
  have hex : ∀ f ∈ schema.reverse, ∃ v, values.lookup f.name = some v := by
    intro f hf
    have hf' : f ∈ schema := List.mem_reverse.1 hf
    have hmem : f.name ∈ values.map Prod.fst :=
      hperm.mem_iff.2 (List.mem_map.2 ⟨f, hf', rfl⟩)
    exact lookup_isSome_of_mem_keys values f.name hmem
  have hbrev : ∀ f ∈ schema.reverse, ∀ v,
      values.lookup f.name = some v → 0 ≤ v ∧ v < 2 ^ f.bits :=
    fun f hf => hlb f (List.mem_reverse.1 hf)
  have hpl := packLoop_calcAux values schema.reverse 0 0 hex hbrev (by norm_num)
  have hres : packLoop values (calculateFieldInfo schema) 0 =
      .ok (packVal values schema) := by
    rw [calculateFieldInfo, hpl.1]
    congr 1
    rw [pow_zero, Nat.one_mul, Nat.zero_add, packRev_reverse]
  simp only [pack, validateFields_ok schema values hnd hperm hb, hres,
    Bool.false_eq_true, if_false]

/-- C2: for every duplicate-free schema and every field assignment covering
exactly the schema's fields with each value in `[0, 2^bits)`,
`pack(values, false)` succeeds, and `unpack` of the packed integer returns
exactly the original values (each field name mapped back to its original
value, listed in schema order); the packed integer is the positional sum
`packVal`, which on the example schema `[{id,10},{type,2},{flag,1}]` with
`{id:100, type:2, flag:1}` is 805. -/
theorem obfusbit_pack_unpack_roundtrip (schema : SchemaDefinition)
    (values : List (String × Int))
    (hnd : (schema.map FieldSchema.name).Nodup)
    (hperm : (values.map Prod.fst).Perm (schema.map FieldSchema.name))
    (hb : ∀ p ∈ values, ∀ f ∈ schema, p.1 = f.name → 0 ≤ p.2 ∧ p.2 < 2 ^ f.bits) :
    pack schema values false = .ok (packVal values schema) ∧
    unpack schema (packVal values schema) false =
      .ok (schema.map fun f => (f.name, ((values.lookup f.name).getD 0).toNat)) := by
  refine ⟨pack_ok schema values hnd hperm hb, ?_⟩
  rw [unpack_ok schema (packVal values schema) hnd,
    unpackSpec_packVal values schema (bounds_of_pairwise schema values hb)]

/-- Witness: the spec's example — packing `{id:100, type:2, flag:1}` into the
13-bit example schema gives 805, and unpacking 805 restores the fields. -/
theorem obfusbit_pack_unpack_roundtrip_witness :
    pack exampleSchema [("id", 100), ("type", 2), ("flag", 1)] false = .ok 805 ∧
    unpack exampleSchema 805 false =
      .ok [("id", 100), ("type", 2), ("flag", 1)] := by
  have h := obfusbit_pack_unpack_roundtrip exampleSchema
    [("id", 100), ("type", 2), ("flag", 1)] (by decide) (List.Perm.refl _) (by decide)
  have hp : packVal [("id", 100), ("type", 2), ("flag", 1)] exampleSchema = 805 := by
    decide
  refine ⟨?_, ?_⟩
  · rw [h.1, hp]
  · have h2 := h.2
    rw [hp] at h2
    rw [h2]
    rfl

/-! ## Lemmas: schema validation -/

theorem validateSchemaAux_spec : ∀ (l : SchemaDefinition) (seen : List String),
    validateSchemaAux l seen = .ok () ↔
      (∀ f ∈ l, 0 < f.bits) ∧ (l.map FieldSchema.name).Nodup ∧
        ∀ f ∈ l, f.name ∉ seen := by
  intro l
  induction l with
  | nil => intro seen; simp [validateSchemaAux]
  | cons f rest ih =>
    intro seen
    by_cases hbits : f.bits = 0
    · simp only [validateSchemaAux, validateSchemaItem, if_pos hbits]
      simp [hbits]
    · by_cases hs : f.name ∈ seen
      · simp only [validateSchemaAux, validateSchemaItem, if_neg hbits, if_pos hs]
        simp [hs]
      · simp only [validateSchemaAux, validateSchemaItem, if_neg hbits, if_neg hs]
        rw [ih (seen ++ [f.name])]
        constructor
        · rintro ⟨h1, h2, h3⟩
          refine ⟨?_, ?_, ?_⟩
          · intro g hg
            rcases List.mem_cons.1 hg with h | h
            · subst h; omega
            · exact h1 g h
          · rw [List.map_cons, List.nodup_cons]
            refine ⟨fun hmem => ?_, h2⟩
            obtain ⟨g, hg, hgname⟩ := List.mem_map.1 hmem
            have h4 := h3 g hg
            rw [hgname] at h4
            exact h4 (List.mem_append.2 (Or.inr (List.mem_singleton.2 rfl)))
          · intro g hg
            rcases List.mem_cons.1 hg with h | h
            · subst h; exact hs
            · exact fun hcon => h3 g h (List.mem_append.2 (Or.inl hcon))
        · rintro ⟨h1, h2, h3⟩
          rw [List.map_cons, List.nodup_cons] at h2
          refine ⟨fun g hg => h1 g (List.mem_cons_of_mem f hg), h2.2, ?_⟩
          intro g hg hcon
          rcases List.mem_append.1 hcon with h | h
          · exact h3 g (List.mem_cons_of_mem f hg) h
          · exact h2.1 (List.mem_map.2 ⟨g, hg, List.mem_singleton.1 h⟩)

/-- The empty-string field name is accepted: `validateSchema` never inspects
the content of a name, only its uniqueness. -/
theorem validateSchema_empty_name_accepted :
    validateSchema [⟨"", 1⟩] = .ok () := rfl

/-- C8 (amended): schema construction succeeds exactly when every field has a
positive bit width and the field names are pairwise distinct; the content of
a name is never inspected (in the typed source only `typeof name` is
checked), so any string name — the empty string included — is accepted. -/
theorem validateSchema_spec (schema : SchemaDefinition) :
    validateSchema schema = .ok () ↔
      (∀ f ∈ schema, 0 < f.bits) ∧ (schema.map FieldSchema.name).Nodup := by
  rw [validateSchema, validateSchemaAux_spec schema []]
  simp

end Obfus
